import Mathlib

/-!
Verification of the Auto-Eval-ai document-image rectification and segmentation
pipeline (`src/Models/Segment.py`, `src/Alignment/model.py`,
`src/Alignment/train.py`).  Each Python routine that a claim touches is given
a shallow embedding here: pure numeric code becomes a Lean function over `ℚ`
(or `ℝ` where the source takes square roots or trigonometric functions),
fallible code returns `Option`/`Except`, and library calls with a documented
contract (numpy's SVD) become explicit parameters constrained by hypotheses
stating that contract.
-/

namespace AutoEval

/-! ### Numeric helpers shared by several routines -/

/-- `np.clip x lo hi` for scalars. -/
def clip (x lo hi : ℚ) : ℚ := min (max x lo) hi

theorem clip_mem (x lo hi : ℚ) (h : lo ≤ hi) : lo ≤ clip x lo hi ∧ clip x lo hi ≤ hi := by
  constructor
  · exact le_min (le_max_right x lo) h
  · exact min_le_right _ _

theorem clip_mono (x y lo hi : ℚ) (hxy : x ≤ y) : clip x lo hi ≤ clip y lo hi := by
  unfold clip
  exact min_le_min (max_le_max hxy le_rfl) le_rfl

/-! ### ConfidenceEstimator
`compute_alignment_confidence_from_stats` (Segment.py lines 228-238).

The Python function reads `nMatches`, `inliers` and `median_reproj_err` out of
a stats dictionary; those three numbers (and the `fallback`/`doc_area_ratio`
arguments) are the whole input, so the embedding takes them directly.
`nMatches` and `inliers` are Python ints, the rest are floats, embedded as `ℚ`. -/

/-- Area-ratio confidence: the `fallback=True` branch of
`compute_alignment_confidence_from_stats`. -/
def confidence_fallback (doc_area_ratio : ℚ) : ℚ :=
  clip ((doc_area_ratio - 2/10) / (75/100)) 0 1

/-- Feature-match confidence: the `fallback=False` branch of
`compute_alignment_confidence_from_stats`. -/
def confidence_features (nMatches inliers : ℤ) (median_reproj_err : ℚ) : ℚ :=
  if nMatches ≤ 0 then 0
  else
    let inlier_ratio : ℚ := (inliers : ℚ) / (nMatches : ℚ)
    let reproj_norm : ℚ := clip (1 - median_reproj_err / 50) 0 1
    clip (7/10 * inlier_ratio + 3/10 * reproj_norm) 0 1

/-- `compute_alignment_confidence_from_stats` itself. -/
def compute_alignment_confidence_from_stats
    (nMatches inliers : ℤ) (median_reproj_err : ℚ) (fallback : Bool) (doc_area_ratio : ℚ) : ℚ :=
  if fallback then confidence_fallback doc_area_ratio
  else confidence_features nMatches inliers median_reproj_err

/-! ### Manual-check heuristics
Thresholds from the CONFIG block of Segment.py and the manual-check code of
`process_single_image` (lines 420-434, 470-481) and
`process_single_image_with_alignment` (lines 706-718).  The heuristics read
only the scalar metrics and, in `process_single_image`, the per-label crops;
the embedding takes those directly.  A crop is a grayscale pixel list
(`crop_bbox_from_template_coords` returns `None` for an invalid crop, hence
`Option`). -/

def CONFIDENCE_THRESHOLD : ℚ := 60/100
def RESIDUAL_MAD_THRESHOLD : ℚ := 30
def ROTATION_THRESHOLD_DEG : ℚ := 10
def SCALE_PERCENT_THRESHOLD : ℚ := 10
def PERSPECTIVE_DISTORTION_PCT : ℚ := 8

/-- `is_mostly_blank` (Segment.py lines 240-246) on a grayscale pixel list:
the fraction of pixels `≥ white_thresh` is at least `pct`. -/
def is_mostly_blank (pixels : List ℕ) (white_thresh : ℕ) (pct : ℚ) : Bool :=
  decide (pct ≤ ((pixels.countP (fun p => decide (white_thresh ≤ p)) : ℚ) / (pixels.length : ℚ)))

/-- The five threshold checks shared verbatim by both processing functions. -/
def manual_reasons_core (confidence : ℚ) (residual_mad : Option ℚ)
    (rotation_deg scale_x scale_y persp_pct : ℚ) : List String :=
  (if confidence < CONFIDENCE_THRESHOLD then ["low_confidence"] else []) ++
  (match residual_mad with
   | some m => if RESIDUAL_MAD_THRESHOLD < m then ["high_residual_mad"] else []
   | none => []) ++
  (if ROTATION_THRESHOLD_DEG < |rotation_deg| then ["high_rotation"] else []) ++
  (if SCALE_PERCENT_THRESHOLD < max (|scale_x - 1| * 100) (|scale_y - 1| * 100)
   then ["scale_change"] else []) ++
  (if PERSPECTIVE_DISTORTION_PCT < persp_pct then ["perspective_distortion"] else [])

/-- One crop of the per-label loop of `process_single_image`: `none` when
`crop_bbox_from_template_coords` returned `None` (which yields only an
`invalid_crop` warning), otherwise the blank test at thresholds 245 / 0.98. -/
def crop_is_blank (crop : Option (List ℕ)) : Bool :=
  match crop with
  | none => false
  | some px => is_mostly_blank px 245 (98/100)

/-- Manual flag and reasons as assembled by `process_single_image`
(threshold checks, then the crop loop that appends `mostly_blank_crop` once
and forces the flag). -/
def process_single_image_manual_check (confidence : ℚ) (residual_mad : Option ℚ)
    (rotation_deg scale_x scale_y persp_pct : ℚ) (crops : List (Option (List ℕ))) :
    Bool × List String :=
  let reasons := manual_reasons_core confidence residual_mad rotation_deg scale_x scale_y persp_pct
  if crops.any crop_is_blank then (true, reasons ++ ["mostly_blank_crop"])
  else (decide (0 < reasons.length), reasons)

/-- Manual flag and reasons as assembled by
`process_single_image_with_alignment` (threshold checks only). -/
def alignment_manual_check (confidence : ℚ) (residual_mad : Option ℚ)
    (rotation_deg scale_x scale_y persp_pct : ℚ) : Bool × List String :=
  let reasons := manual_reasons_core confidence residual_mad rotation_deg scale_x scale_y persp_pct
  (decide (0 < reasons.length), reasons)

theorem process_single_image_manual_check_eq (confidence : ℚ) (residual_mad : Option ℚ)
    (rotation_deg scale_x scale_y persp_pct : ℚ) (crops : List (Option (List ℕ))) :
    process_single_image_manual_check confidence residual_mad rotation_deg
        scale_x scale_y persp_pct crops =
      ((crops.any crop_is_blank ||
          decide (0 < (manual_reasons_core confidence residual_mad rotation_deg
            scale_x scale_y persp_pct).length)),
       manual_reasons_core confidence residual_mad rotation_deg scale_x scale_y persp_pct
         ++ (if crops.any crop_is_blank then ["mostly_blank_crop"] else [])) := by
  unfold process_single_image_manual_check
  by_cases h : crops.any crop_is_blank <;> simp [h]

theorem manual_reasons_core_pos_iff (confidence : ℚ) (residual_mad : Option ℚ)
    (rotation_deg scale_x scale_y persp_pct : ℚ) :
    0 < (manual_reasons_core confidence residual_mad rotation_deg scale_x scale_y
          persp_pct).length ↔
      (confidence < CONFIDENCE_THRESHOLD ∨
       (∃ m, residual_mad = some m ∧ RESIDUAL_MAD_THRESHOLD < m) ∨
       ROTATION_THRESHOLD_DEG < |rotation_deg| ∨
       SCALE_PERCENT_THRESHOLD < max (|scale_x - 1| * 100) (|scale_y - 1| * 100) ∨
       PERSPECTIVE_DISTORTION_PCT < persp_pct) := by
  rcases residual_mad with _ | m <;>
    · simp only [manual_reasons_core]
      split_ifs <;> simp_all

/-! ### Alignment-method dispatch
`align_page` (train.py lines 178-207) tries `detect_quad_bright`, then
`detect_quad_lsd`, then `detect_quad_minrect`; each detector either yields a
quadrilateral or `None`, so the dispatch is embedded over the three detector
outcomes.  `process_single_image` (Segment.py lines 285-384) and
`process_single_image_with_alignment` (lines 534-670) choose a method tag and
confidence from the size check and the outcomes of their detection stages;
a successful stage carries the confidence that the code assigns on it. -/

/-- The Python errors `align_page` can raise: `ValueError` from evaluating
the truth value of a multi-element ndarray inside the `or` chain, and the
explicit `RuntimeError`. -/
inductive PyError : Type
  | valueError : PyError
  | runtimeError : String → PyError
deriving DecidableEq

/-- `quad = detect_quad_bright(pre) or detect_quad_lsd(pre) or detect_quad_minrect(pre)`
with Python's actual `or` semantics: `x or y` first evaluates `bool(x)`.
`bool(None)` is `False`, but `bool()` of a successful detector result — a
4×2 `np.float32` ndarray, which has more than one element — raises
`ValueError` ("The truth value of an array with more than one element is
ambiguous").  The chain associates as `bright or (lsd or minrect)` and the
last operand is returned without a truthiness test, so only the minrect
result escapes `bool()`. -/
def align_page_quad {α : Type} (bright lsd minrect : Option α) :
    Except PyError (Option α) :=
  match bright with
  | some _ => Except.error PyError.valueError
  | none =>
    match lsd with
    | some _ => Except.error PyError.valueError
    | none => Except.ok minrect

/-- `align_page`: raise `RuntimeError("Page quad not found.")` when the
chain produced `None`, propagate the chain's own `ValueError` when it
raised, and otherwise continue with the chosen quad. -/
def align_page {α : Type} (bright lsd minrect : Option α) : Except PyError α :=
  match align_page_quad bright lsd minrect with
  | Except.error e => Except.error e
  | Except.ok none => Except.error (PyError.runtimeError "Page quad not found.")
  | Except.ok (some q) => Except.ok q

/-- Method tag and confidence chosen by `process_single_image`:
identity when sizes match, else contour detection (`doc_detect` carries the
fallback confidence when that stage succeeds), else the final fallback that
re-tests `size_diff_ok`. -/
def select_method_process_single_image (size_diff_ok : Bool) (doc_detect : Option ℚ) :
    String × ℚ :=
  if size_diff_ok then ("identity_size_match", 95/100)
  else
    match doc_detect with
    | some conf => ("doc_detect", conf)
    | none =>
      if size_diff_ok then ("identity_after_failed_detection", 1/2)
      else ("simple_resize_fallback", 0)

/-- Method tag and confidence chosen by `process_single_image_with_alignment`:
feature homography first, then the same tail as `process_single_image`. -/
def select_method_with_alignment (feature : Option ℚ) (size_diff_ok : Bool)
    (doc_detect : Option ℚ) : String × ℚ :=
  match feature with
  | some conf => ("feature_homography", conf)
  | none => select_method_process_single_image size_diff_ok doc_detect

end AutoEval

/-- C2: the feature-match confidence (fallback=False) equals
`clip(0.7·(inliers/nMatches) + 0.3·clip(1 − err/50, 0, 1), 0, 1)` (and `0` when
`nMatches ≤ 0`); the area-ratio confidence (fallback=True) equals
`clip((ratio − 0.2)/0.75, 0, 1)`; for fixed `nMatches > 0` and fixed
reprojection error the result is monotone non-decreasing in `inliers`; the
fallback result is monotone non-decreasing in `doc_area_ratio`; and both
results always lie in `[0, 1]`. -/
theorem confidence_formula_monotone_bounded
    (nMatches inliers inliers' : ℤ) (err ratio ratio' : ℚ)
    (hm : 0 < nMatches) (hi : inliers ≤ inliers') (hr : ratio ≤ ratio') :
    (AutoEval.compute_alignment_confidence_from_stats nMatches inliers err false 0 =
       AutoEval.clip (7/10 * ((inliers : ℚ) / (nMatches : ℚ))
                      + 3/10 * AutoEval.clip (1 - err / 50) 0 1) 0 1) ∧
    (∀ m i : ℤ, m ≤ 0 → AutoEval.compute_alignment_confidence_from_stats m i err false 0 = 0) ∧
    (AutoEval.compute_alignment_confidence_from_stats 0 0 0 true ratio =
       AutoEval.clip ((ratio - 2/10) / (75/100)) 0 1) ∧
    (AutoEval.compute_alignment_confidence_from_stats nMatches inliers err false 0 ≤
       AutoEval.compute_alignment_confidence_from_stats nMatches inliers' err false 0) ∧
    (AutoEval.compute_alignment_confidence_from_stats 0 0 0 true ratio ≤
       AutoEval.compute_alignment_confidence_from_stats 0 0 0 true ratio') ∧
    (0 ≤ AutoEval.compute_alignment_confidence_from_stats nMatches inliers err false 0 ∧
       AutoEval.compute_alignment_confidence_from_stats nMatches inliers err false 0 ≤ 1) ∧
    (0 ≤ AutoEval.compute_alignment_confidence_from_stats 0 0 0 true ratio ∧
       AutoEval.compute_alignment_confidence_from_stats 0 0 0 true ratio ≤ 1) := by
  have hm' : ¬ nMatches ≤ 0 := not_le.mpr hm
  have hmQ : (0 : ℚ) < (nMatches : ℚ) := by exact_mod_cast hm
  refine ⟨?_, ?_, ?_, ?_, ?_, ?_, ?_⟩
  · simp [AutoEval.compute_alignment_confidence_from_stats, AutoEval.confidence_features, hm']
  · intro m i hle
    simp [AutoEval.compute_alignment_confidence_from_stats, AutoEval.confidence_features, hle]
  · simp [AutoEval.compute_alignment_confidence_from_stats, AutoEval.confidence_fallback]
  · simp only [AutoEval.compute_alignment_confidence_from_stats,
      AutoEval.confidence_features, hm', if_false, Bool.false_eq_true]
    apply AutoEval.clip_mono
    have hratio : (inliers : ℚ) / (nMatches : ℚ) ≤ (inliers' : ℚ) / (nMatches : ℚ) :=
      (div_le_div_iff_of_pos_right hmQ).mpr (by exact_mod_cast hi)
    linarith
  · simp only [AutoEval.compute_alignment_confidence_from_stats,
      AutoEval.confidence_fallback, if_true]
    apply AutoEval.clip_mono
    have : ratio - 2/10 ≤ ratio' - 2/10 := by linarith
    exact (div_le_div_iff_of_pos_right (by norm_num : (0:ℚ) < 75/100)).mpr this
  · simp only [AutoEval.compute_alignment_confidence_from_stats,
      AutoEval.confidence_features, hm', if_false, Bool.false_eq_true]
    exact AutoEval.clip_mem _ _ _ (by norm_num)
  · simp only [AutoEval.compute_alignment_confidence_from_stats,
      AutoEval.confidence_fallback, if_true]
    exact AutoEval.clip_mem _ _ _ (by norm_num)

/-- C1: for both `process_single_image` and
`process_single_image_with_alignment`, the reported `manual_check_needed`
flag is true iff at least one trigger condition holds (confidence < 0.60;
computed residual_mad > 30.0; |rotation_deg| > 10; max(|scale_x−1|,|scale_y−1|)·100 > 10;
perspective_distortion_pct > 8; or, in `process_single_image` only, some crop
mostly blank, i.e. at least 98% of its grayscale pixels ≥ 245).  The reasons
list carries one tag per triggered condition, and a mostly-blank crop forces
the flag regardless of the other conditions. -/
theorem manual_check_needed_iff (confidence : ℚ) (residual_mad : Option ℚ)
    (rotation_deg scale_x scale_y persp_pct : ℚ) (crops : List (Option (List ℕ))) :
    ((AutoEval.process_single_image_manual_check confidence residual_mad rotation_deg
        scale_x scale_y persp_pct crops).1 = true ↔
      (confidence < 60/100 ∨
       (∃ m, residual_mad = some m ∧ 30 < m) ∨
       10 < |rotation_deg| ∨
       10 < max (|scale_x - 1| * 100) (|scale_y - 1| * 100) ∨
       8 < persp_pct ∨
       (∃ c ∈ crops, ∃ px, c = some px ∧
          (98/100 : ℚ) ≤ ((px.countP (fun p => decide (245 ≤ p)) : ℚ) / (px.length : ℚ))))) ∧
    ((AutoEval.alignment_manual_check confidence residual_mad rotation_deg
        scale_x scale_y persp_pct).1 = true ↔
      (confidence < 60/100 ∨
       (∃ m, residual_mad = some m ∧ 30 < m) ∨
       10 < |rotation_deg| ∨
       10 < max (|scale_x - 1| * 100) (|scale_y - 1| * 100) ∨
       8 < persp_pct)) ∧
    ((AutoEval.process_single_image_manual_check confidence residual_mad rotation_deg
        scale_x scale_y persp_pct crops).2 =
      AutoEval.manual_reasons_core confidence residual_mad rotation_deg scale_x scale_y persp_pct
        ++ (if crops.any AutoEval.crop_is_blank then ["mostly_blank_crop"] else [])) ∧
    (crops.any AutoEval.crop_is_blank = true →
      (AutoEval.process_single_image_manual_check confidence residual_mad rotation_deg
        scale_x scale_y persp_pct crops).1 = true) := by
  have hblank : crops.any AutoEval.crop_is_blank = true ↔
      (∃ c ∈ crops, ∃ px, c = some px ∧
        (98/100 : ℚ) ≤ ((px.countP (fun p => decide (245 ≤ p)) : ℚ) / (px.length : ℚ))) := by
    rw [List.any_eq_true]
    constructor
    · rintro ⟨c, hc, hb⟩
      refine ⟨c, hc, ?_⟩
      cases c with
      | none => simp [AutoEval.crop_is_blank] at hb
      | some px =>
        refine ⟨px, rfl, ?_⟩
        simpa [AutoEval.crop_is_blank, AutoEval.is_mostly_blank] using hb
    · rintro ⟨c, hc, px, rfl, hb⟩
      exact ⟨some px, hc, by simpa [AutoEval.crop_is_blank, AutoEval.is_mostly_blank] using hb⟩
  have hcore := AutoEval.manual_reasons_core_pos_iff confidence residual_mad rotation_deg
      scale_x scale_y persp_pct
  simp only [AutoEval.CONFIDENCE_THRESHOLD, AutoEval.RESIDUAL_MAD_THRESHOLD,
    AutoEval.ROTATION_THRESHOLD_DEG, AutoEval.SCALE_PERCENT_THRESHOLD,
    AutoEval.PERSPECTIVE_DISTORTION_PCT] at hcore
  refine ⟨?_, ?_, ?_, ?_⟩
  · rw [AutoEval.process_single_image_manual_check_eq]
    simp only [Bool.or_eq_true, decide_eq_true_eq, hcore, hblank]
    rw [or_comm]
    simp only [or_assoc]
  · simp only [AutoEval.alignment_manual_check, decide_eq_true_eq, hcore]
  · rw [AutoEval.process_single_image_manual_check_eq]
  · intro hb
    rw [AutoEval.process_single_image_manual_check_eq]
    simp only [hb, Bool.true_or]

/-- C9: when every quad-detection strategy fails, `align_page` does surface
an explicit failure — `RuntimeError("Page quad not found.")` — rather than
a silently degraded output.  But this is NOT the only fatal condition:
Python's `or` chain at train.py line 183 evaluates the truth value of the
multi-element ndarray a successful bright-paper or line-segment detection
returns, so `align_page` raises `ValueError` on exactly those success
paths; only a minrect-path success proceeds with a quad. -/
theorem align_page_fatal_conditions {α : Type} (q : α) (lsd minrect : Option α) :
    (AutoEval.align_page (none : Option α) none none =
       Except.error (AutoEval.PyError.runtimeError "Page quad not found.")) ∧
    (AutoEval.align_page (some q) lsd minrect =
       Except.error AutoEval.PyError.valueError) ∧
    (AutoEval.align_page (none : Option α) (some q) minrect =
       Except.error AutoEval.PyError.valueError) ∧
    (AutoEval.align_page (none : Option α) none (some q) = Except.ok q) :=
  ⟨rfl, rfl, rfl, rfl⟩

/-- C10: in both `process_single_image` and
`process_single_image_with_alignment`, when the size check fails and all
detection stages fail, the chosen method is always
`simple_resize_fallback` with confidence 0, and the
`identity_after_failed_detection` branch (confidence 0.5) is unreachable for
every input, because it re-tests `size_diff_ok` inside a branch entered only
when `size_diff_ok` is false. -/
theorem identity_after_failed_detection_unreachable :
    (∀ dd : Option ℚ,
      AutoEval.select_method_process_single_image false dd =
        (if h : dd.isSome then ("doc_detect", dd.get h) else ("simple_resize_fallback", 0))) ∧
    (AutoEval.select_method_process_single_image false none =
      ("simple_resize_fallback", 0)) ∧
    (AutoEval.select_method_with_alignment none false none =
      ("simple_resize_fallback", 0)) ∧
    (∀ (sdo : Bool) (dd : Option ℚ),
      (AutoEval.select_method_process_single_image sdo dd).1 ≠
        "identity_after_failed_detection") ∧
    (∀ (f : Option ℚ) (sdo : Bool) (dd : Option ℚ),
      (AutoEval.select_method_with_alignment f sdo dd).1 ≠
        "identity_after_failed_detection") := by
  refine ⟨?_, rfl, rfl, ?_, ?_⟩
  · intro dd
    cases dd <;> rfl
  · intro sdo dd
    cases sdo <;> cases dd <;>
      simp [AutoEval.select_method_process_single_image]
  · intro f sdo dd
    cases f <;> cases sdo <;> cases dd <;>
      simp [AutoEval.select_method_with_alignment,
        AutoEval.select_method_process_single_image]

namespace AutoEval

/-! ### Corner canonicalization
`order_points` (Segment.py lines 97-105) and `order_corners`
(train.py lines 28-35).  A point is an `(x, y)` pair; `np.argmin`/`np.argmax`
return the FIRST index attaining the extremum, embedded as a left fold that
replaces the running best only on strict improvement. -/

/-- A 2D point with rational (float-valued) coordinates. -/
abbrev Pt : Type := ℚ × ℚ

/-- `pts.sum(axis=1)`: coordinate sum of one point. -/
def psum (p : Pt) : ℚ := p.1 + p.2

/-- `np.diff(pts, axis=1)`: second coordinate minus first, `y − x`. -/
def pdiff (p : Pt) : ℚ := p.2 - p.1

/-- First point of `p :: ps` attaining the minimum of `f` (`np.argmin`). -/
def selMin (f : Pt → ℚ) (p : Pt) (ps : List Pt) : Pt :=
  ps.foldl (fun best q => if f q < f best then q else best) p

/-- First point of `p :: ps` attaining the maximum of `f` (`np.argmax`). -/
def selMax (f : Pt → ℚ) (p : Pt) (ps : List Pt) : Pt :=
  ps.foldl (fun best q => if f best < f q then q else best) p

/-- `order_points` from Segment.py: `[argmin s, argmin diff, argmax s, argmax diff]`,
i.e. (top-left, top-right, bottom-right, bottom-left). -/
def order_points : List Pt → List Pt
  | [] => []
  | p :: ps => [selMin psum p ps, selMin pdiff p ps, selMax psum p ps, selMax pdiff p ps]

/-- `order_corners` from train.py: `[tl, tr, br, bl]` by the same
argmin/argmax extremes. -/
def order_corners : List Pt → List Pt
  | [] => []
  | p :: ps => [selMin psum p ps, selMin pdiff p ps, selMax psum p ps, selMax pdiff p ps]

theorem order_corners_eq_order_points (pts : List Pt) :
    order_corners pts = order_points pts := by
  cases pts <;> rfl

theorem selMin_spec (f : Pt → ℚ) (p : Pt) (ps : List Pt) :
    selMin f p ps ∈ p :: ps ∧ ∀ q ∈ p :: ps, f (selMin f p ps) ≤ f q := by
  induction ps generalizing p with
  | nil =>
    refine ⟨List.mem_cons_self _ _, ?_⟩
    intro q hq
    rcases List.mem_cons.mp hq with rfl | h
    · exact le_rfl
    · exact absurd h (List.not_mem_nil q)
  | cons r rs ih =>
    have hstep : selMin f p (r :: rs) = selMin f (if f r < f p then r else p) rs := rfl
    obtain ⟨ihmem, ihle⟩ := ih (if f r < f p then r else p)
    constructor
    · rw [hstep]
      rcases List.mem_cons.mp ihmem with heq | hmem
      · rw [heq]
        by_cases h : f r < f p
        · simp [h]
        · simp [h]
      · exact List.mem_cons.mpr (Or.inr (List.mem_cons.mpr (Or.inr hmem)))
    · intro q hq
      rw [hstep]
      have hhead := ihle (if f r < f p then r else p) (List.mem_cons_self _ _)
      rcases List.mem_cons.mp hq with heq | hq'
      · rw [heq]
        by_cases h : f r < f p
        · rw [if_pos h] at hhead ⊢
          exact hhead.trans h.le
        · rw [if_neg h] at hhead ⊢
          exact hhead
      · rcases List.mem_cons.mp hq' with heq | hq2
        · rw [heq]
          by_cases h : f r < f p
          · rw [if_pos h] at hhead ⊢
            exact hhead
          · rw [if_neg h] at hhead ⊢
            exact hhead.trans (not_lt.mp h)
        · exact ihle q (List.mem_cons.mpr (Or.inr hq2))

theorem selMax_spec (f : Pt → ℚ) (p : Pt) (ps : List Pt) :
    selMax f p ps ∈ p :: ps ∧ ∀ q ∈ p :: ps, f q ≤ f (selMax f p ps) := by
  induction ps generalizing p with
  | nil =>
    refine ⟨List.mem_cons_self _ _, ?_⟩
    intro q hq
    rcases List.mem_cons.mp hq with rfl | h
    · exact le_rfl
    · exact absurd h (List.not_mem_nil q)
  | cons r rs ih =>
    have hstep : selMax f p (r :: rs) = selMax f (if f p < f r then r else p) rs := rfl
    obtain ⟨ihmem, ihle⟩ := ih (if f p < f r then r else p)
    constructor
    · rw [hstep]
      rcases List.mem_cons.mp ihmem with heq | hmem
      · rw [heq]
        by_cases h : f p < f r
        · simp [h]
        · simp [h]
      · exact List.mem_cons.mpr (Or.inr (List.mem_cons.mpr (Or.inr hmem)))
    · intro q hq
      rw [hstep]
      have hhead := ihle (if f p < f r then r else p) (List.mem_cons_self _ _)
      rcases List.mem_cons.mp hq with heq | hq'
      · rw [heq]
        by_cases h : f p < f r
        · rw [if_pos h] at hhead ⊢
          exact h.le.trans hhead
        · rw [if_neg h] at hhead ⊢
          exact hhead
      · rcases List.mem_cons.mp hq' with heq | hq2
        · rw [heq]
          by_cases h : f p < f r
          · rw [if_pos h] at hhead ⊢
            exact hhead
          · rw [if_neg h] at hhead ⊢
            exact (not_lt.mp h).trans hhead
        · exact ihle q (List.mem_cons.mpr (Or.inr hq2))

/-- A point that strictly minimizes `f` over the list is what `selMin` picks. -/
theorem selMin_eq_of_unique (f : Pt → ℚ) (p : Pt) (ps : List Pt) (a : Pt)
    (ha : a ∈ p :: ps) (huniq : ∀ q ∈ p :: ps, q ≠ a → f a < f q) :
    selMin f p ps = a := by
  by_contra hne
  obtain ⟨hmem, hle⟩ := selMin_spec f p ps
  exact absurd (hle a ha) (not_le.mpr (huniq _ hmem hne))

/-- A point that strictly maximizes `f` over the list is what `selMax` picks. -/
theorem selMax_eq_of_unique (f : Pt → ℚ) (p : Pt) (ps : List Pt) (a : Pt)
    (ha : a ∈ p :: ps) (huniq : ∀ q ∈ p :: ps, q ≠ a → f q < f a) :
    selMax f p ps = a := by
  by_contra hne
  obtain ⟨hmem, hge⟩ := selMax_spec f p ps
  exact absurd (hge a ha) (not_le.mpr (huniq _ hmem hne))

end AutoEval

theorem order_points_eq_of_unique (pts : List AutoEval.Pt) (hne : pts ≠ [])
    (tl tr br bl : AutoEval.Pt)
    (htl : tl ∈ pts) (htl' : ∀ q ∈ pts, q ≠ tl → AutoEval.psum tl < AutoEval.psum q)
    (htr : tr ∈ pts) (htr' : ∀ q ∈ pts, q ≠ tr → AutoEval.pdiff tr < AutoEval.pdiff q)
    (hbr : br ∈ pts) (hbr' : ∀ q ∈ pts, q ≠ br → AutoEval.psum q < AutoEval.psum br)
    (hbl : bl ∈ pts) (hbl' : ∀ q ∈ pts, q ≠ bl → AutoEval.pdiff q < AutoEval.pdiff bl) :
    AutoEval.order_points pts = [tl, tr, br, bl] := by
  cases pts with
  | nil => exact absurd rfl hne
  | cons p ps =>
    show [AutoEval.selMin AutoEval.psum p ps, AutoEval.selMin AutoEval.pdiff p ps,
          AutoEval.selMax AutoEval.psum p ps, AutoEval.selMax AutoEval.pdiff p ps] = _
    rw [AutoEval.selMin_eq_of_unique AutoEval.psum p ps tl htl htl',
        AutoEval.selMin_eq_of_unique AutoEval.pdiff p ps tr htr htr',
        AutoEval.selMax_eq_of_unique AutoEval.psum p ps br hbr hbr',
        AutoEval.selMax_eq_of_unique AutoEval.pdiff p ps bl hbl hbl']

/-- C3 counterexample: the corner-canonicalization output is NOT invariant
under permutation of the four input points.  For the tied quad
(1,0),(0,1),(2,1),(1,2) — a 45°-rotated square where two points share the
minimal coordinate sum — swapping the first two input points changes the
returned quadruple, because `np.argmin`/`np.argmax` break ties by input
position. -/
theorem order_points_not_perm_invariant :
    (([((1:ℚ), (0:ℚ)), (0, 1), (2, 1), (1, 2)] : List AutoEval.Pt).Perm
      [((0:ℚ), (1:ℚ)), (1, 0), (2, 1), (1, 2)]) ∧
    AutoEval.order_points [((1:ℚ), (0:ℚ)), (0, 1), (2, 1), (1, 2)] ≠
      AutoEval.order_points [((0:ℚ), (1:ℚ)), (1, 0), (2, 1), (1, 2)] ∧
    AutoEval.order_corners [((1:ℚ), (0:ℚ)), (0, 1), (2, 1), (1, 2)] ≠
      AutoEval.order_corners [((0:ℚ), (1:ℚ)), (1, 0), (2, 1), (1, 2)] := by
  have e1 : AutoEval.order_points [((1:ℚ), (0:ℚ)), (0, 1), (2, 1), (1, 2)] =
      [((1:ℚ), (0:ℚ)), (1, 0), (2, 1), (0, 1)] := by
    norm_num [AutoEval.order_points, AutoEval.selMin, AutoEval.selMax,
      AutoEval.psum, AutoEval.pdiff]
  have e2 : AutoEval.order_points [((0:ℚ), (1:ℚ)), (1, 0), (2, 1), (1, 2)] =
      [((0:ℚ), (1:ℚ)), (1, 0), (2, 1), (0, 1)] := by
    norm_num [AutoEval.order_points, AutoEval.selMin, AutoEval.selMax,
      AutoEval.psum, AutoEval.pdiff]
  refine ⟨List.Perm.swap _ _ _, ?_, ?_⟩
  · rw [e1, e2]
    norm_num
  · rw [AutoEval.order_corners_eq_order_points, AutoEval.order_corners_eq_order_points, e1, e2]
    norm_num

/-- C3 (amended): for four 2D points in which each of the four extrema
(minimal x+y, maximal x+y, minimal y−x, maximal y−x) is attained by a unique
point, `order_points` (Segment.py) and `order_corners` (train.py) agree and
return the quadruple (top-left, top-right, bottom-right, bottom-left)
invariantly under every permutation of the input order; when an extremum is
tied, ties are broken by input position and the output can change under
permutation. -/
theorem order_points_perm_invariant_of_unique_extremes
    (pts pts' : List AutoEval.Pt) (tl tr br bl : AutoEval.Pt)
    (hlen : pts.length = 4) (hperm : pts.Perm pts')
    (htl : tl ∈ pts) (htl' : ∀ q ∈ pts, q ≠ tl → AutoEval.psum tl < AutoEval.psum q)
    (htr : tr ∈ pts) (htr' : ∀ q ∈ pts, q ≠ tr → AutoEval.pdiff tr < AutoEval.pdiff q)
    (hbr : br ∈ pts) (hbr' : ∀ q ∈ pts, q ≠ br → AutoEval.psum q < AutoEval.psum br)
    (hbl : bl ∈ pts) (hbl' : ∀ q ∈ pts, q ≠ bl → AutoEval.pdiff q < AutoEval.pdiff bl) :
    AutoEval.order_points pts = [tl, tr, br, bl] ∧
    AutoEval.order_points pts' = [tl, tr, br, bl] ∧
    AutoEval.order_corners pts = [tl, tr, br, bl] ∧
    AutoEval.order_corners pts' = [tl, tr, br, bl] := by
  have hne : pts ≠ [] := by
    intro h
    rw [h] at hlen
    exact absurd hlen (by decide)
  have hne' : pts' ≠ [] := by
    intro h
    have := hperm.length_eq
    rw [h, hlen] at this
    exact absurd this (by decide)
  have h1 := order_points_eq_of_unique pts hne tl tr br bl htl htl' htr htr' hbr hbr' hbl hbl'
  have h2 := order_points_eq_of_unique pts' hne' tl tr br bl
    (hperm.mem_iff.mp htl) (fun q hq => htl' q (hperm.mem_iff.mpr hq))
    (hperm.mem_iff.mp htr) (fun q hq => htr' q (hperm.mem_iff.mpr hq))
    (hperm.mem_iff.mp hbr) (fun q hq => hbr' q (hperm.mem_iff.mpr hq))
    (hperm.mem_iff.mp hbl) (fun q hq => hbl' q (hperm.mem_iff.mpr hq))
  exact ⟨h1, h2, (AutoEval.order_corners_eq_order_points pts).trans h1,
    (AutoEval.order_corners_eq_order_points pts').trans h2⟩

/-- Witness for the amended C3 theorem at the concrete axis-aligned square
(0,0),(4,0),(4,4),(0,4) against its reversal. -/
theorem order_points_perm_invariant_witness :
    (([((0:ℚ), (0:ℚ)), (4, 0), (4, 4), (0, 4)] : List AutoEval.Pt).length = 4) ∧
    (([((0:ℚ), (0:ℚ)), (4, 0), (4, 4), (0, 4)] : List AutoEval.Pt).Perm
      [((0:ℚ), (4:ℚ)), (4, 4), (4, 0), (0, 0)]) ∧
    (AutoEval.order_points [((0:ℚ), (0:ℚ)), (4, 0), (4, 4), (0, 4)] =
      [((0:ℚ), (0:ℚ)), (4, 0), (4, 4), (0, 4)] ∧
     AutoEval.order_points [((0:ℚ), (4:ℚ)), (4, 4), (4, 0), (0, 0)] =
      [((0:ℚ), (0:ℚ)), (4, 0), (4, 4), (0, 4)] ∧
     AutoEval.order_corners [((0:ℚ), (0:ℚ)), (4, 0), (4, 4), (0, 4)] =
      [((0:ℚ), (0:ℚ)), (4, 0), (4, 4), (0, 4)] ∧
     AutoEval.order_corners [((0:ℚ), (4:ℚ)), (4, 4), (4, 0), (0, 0)] =
      [((0:ℚ), (0:ℚ)), (4, 0), (4, 4), (0, 4)]) := by
  have hperm : ([((0:ℚ), (0:ℚ)), (4, 0), (4, 4), (0, 4)] : List AutoEval.Pt).Perm
      [((0:ℚ), (4:ℚ)), (4, 4), (4, 0), (0, 0)] := by
    simpa using
      (List.reverse_perm ([((0:ℚ), (0:ℚ)), (4, 0), (4, 4), (0, 4)] : List AutoEval.Pt)).symm
  refine ⟨by norm_num, hperm, ?_⟩
  exact order_points_perm_invariant_of_unique_extremes _ _ _ _ _ _ (by norm_num) hperm
    (by norm_num) (by norm_num [AutoEval.psum]) (by norm_num)
    (by norm_num [AutoEval.pdiff]) (by norm_num) (by norm_num [AutoEval.psum])
    (by norm_num) (by norm_num [AutoEval.pdiff])

namespace AutoEval

/-! ### FinalCropper
`final_hybrid_crop_after_deskew` (model.py lines 221-284).  The ink
projections and the paper mask are produced by library image filters; what
the claim is about is the slice-bound arithmetic that combines them, so the
embedding takes the row/column index sets passing the projection thresholds
(`rows`, `cols`, ascending index lists into `[0,H)`/`[0,W)`) and the paper
bounding box `b2` from `box_from_mask` (`None` when the mask had no contour)
as inputs.  Python `int(0.01*W)`/`int(0.99*W)` are embedded as the integer
divisions `W/100` and `99*W/100`.  A Python slice `rgb[y0:y1, x0:x1]` is
recorded as `CropResult.slice y0 y1 x0 x1`; `unmodified` records `return rgb`. -/

/-- Result of the final crop: either the input image unmodified or the
slice `rgb[y0:y1, x0:x1]`. -/
inductive CropResult : Type
  | unmodified : CropResult
  | slice (y0 y1 x0 x1 : ℤ) : CropResult
deriving DecidableEq

/-- The returned region lies inside the image bounds `[0,H] × [0,W]`. -/
def crop_in_bounds (H W : ℕ) : CropResult → Prop
  | CropResult.unmodified => True
  | CropResult.slice y0 y1 x0 x1 => 0 ≤ y0 ∧ y1 ≤ (H : ℤ) ∧ 0 ≤ x0 ∧ x1 ≤ (W : ℤ)

/-- The returned region has strictly positive width and height (an
unmodified return stands for the whole image). -/
def crop_pos : CropResult → Prop
  | CropResult.unmodified => True
  | CropResult.slice y0 y1 x0 x1 => y0 < y1 ∧ x0 < x1

/-- `final_hybrid_crop_after_deskew`, from the point where `rows`, `cols`
and the paper box `b2` have been computed. -/
def final_hybrid_crop_after_deskew (H W pad : ℕ) (rows cols : List ℕ)
    (b2 : Option (ℕ × ℕ × ℕ × ℕ)) : CropResult :=
  let lowW : ℤ := ((W / 100 : ℕ) : ℤ)
  let highW : ℤ := (((99 * W) / 100 : ℕ) : ℤ)
  let lowH : ℤ := ((H / 100 : ℕ) : ℤ)
  let highH : ℤ := (((99 * H) / 100 : ℕ) : ℤ)
  if rows.isEmpty || cols.isEmpty then
    match b2 with
    | none => CropResult.unmodified
    | some (x2, y2, w2, h2) =>
      CropResult.slice (max lowH ((y2 : ℤ) - pad)) (min highH ((y2 : ℤ) + h2 + pad))
        (max lowW ((x2 : ℤ) - pad)) (min highW ((x2 : ℤ) + w2 + pad))
  else
    let y0i : ℤ := (rows.headD 0 : ℕ)
    let y1i : ℤ := (rows.getLastD 0 : ℕ)
    let x0i : ℤ := (cols.headD 0 : ℕ)
    let x1i : ℤ := (cols.getLastD 0 : ℕ)
    match b2 with
    | none =>
      let x0 := max lowW (x0i - pad)
      let y0 := max lowH (y0i - pad)
      let x1 := min highW (x1i + pad)
      let y1 := min highH (y1i + pad)
      if y1 ≤ y0 ∨ x1 ≤ x0 then CropResult.unmodified
      else CropResult.slice y0 y1 x0 x1
    | some (x2, y2, w2, h2) =>
      let x0 := max lowW (max x0i (x2 : ℤ) - pad)
      let y0 := max lowH (max y0i (y2 : ℤ) - pad)
      let x1 := min highW (min x1i ((x2 : ℤ) + w2) + pad)
      let y1 := min highH (min y1i ((y2 : ℤ) + h2) + pad)
      if y1 ≤ y0 ∨ x1 ≤ x0 then
        let xa0 := max lowW (x0i - pad)
        let ya0 := max lowH (y0i - pad)
        let xa1 := min highW (x1i + pad)
        let ya1 := min highH (y1i + pad)
        let xb0 := max lowW ((x2 : ℤ) - pad)
        let yb0 := max lowH ((y2 : ℤ) - pad)
        let xb1 := min highW ((x2 : ℤ) + w2 + pad)
        let yb1 := min highH ((y2 : ℤ) + h2 + pad)
        let area_a := max 0 (xa1 - xa0) * max 0 (ya1 - ya0)
        let area_b := max 0 (xb1 - xb0) * max 0 (yb1 - yb0)
        if area_b ≠ 0 ∧ area_b < area_a then CropResult.slice yb0 yb1 xb0 xb1
        else CropResult.slice ya0 ya1 xa0 xa1
      else CropResult.slice y0 y1 x0 x1

end AutoEval

/-- C4 counterexample: `final_hybrid_crop_after_deskew` can return an
empty region.  With a 3000×3000 image, pad 10, no ink rows/columns passing
the projection thresholds, and a 2×2 paper box at the image corner, the
paper-box-only branch (which has no degeneracy check) slices
`rgb[30:12, 30:12]` — zero height and width. -/
theorem final_crop_zero_size_counterexample :
    AutoEval.final_hybrid_crop_after_deskew 3000 3000 10 [] [] (some (0, 0, 2, 2)) =
      AutoEval.CropResult.slice 30 12 30 12 ∧
    ¬ AutoEval.crop_pos
        (AutoEval.final_hybrid_crop_after_deskew 3000 3000 10 [] [] (some (0, 0, 2, 2))) := by
  have e : AutoEval.final_hybrid_crop_after_deskew 3000 3000 10 [] [] (some (0, 0, 2, 2)) =
      AutoEval.CropResult.slice 30 12 30 12 := by decide
  refine ⟨e, ?_⟩
  intro h
  rw [e] at h
  exact absurd h.1 (by norm_num)

/-- C4 (amended): every region `final_hybrid_crop_after_deskew` returns is
fully contained within the input image bounds; when no paper-shape box
exists the result additionally has strictly positive width and height (the
ink-only fallback checks degeneracy and the no-estimate fallback returns the
input unmodified); but the paper-box-only branch and the
degenerate-intersection tie-break perform no final degeneracy check, so with
a paper box present the returned slice can be empty. -/
theorem final_crop_in_bounds_and_no_paper_box_positive
    (H W pad : ℕ) (rows cols : List ℕ) (b2 : Option (ℕ × ℕ × ℕ × ℕ)) :
    AutoEval.crop_in_bounds H W
      (AutoEval.final_hybrid_crop_after_deskew H W pad rows cols b2) ∧
    (b2 = none → AutoEval.crop_pos
      (AutoEval.final_hybrid_crop_after_deskew H W pad rows cols b2)) ∧
    ((rows.isEmpty || cols.isEmpty) = true → b2 = none →
      AutoEval.final_hybrid_crop_after_deskew H W pad rows cols b2 =
        AutoEval.CropResult.unmodified) := by
  rcases b2 with _ | ⟨x2, y2, w2, h2⟩ <;>
    unfold AutoEval.final_hybrid_crop_after_deskew <;>
    by_cases he : (rows.isEmpty || cols.isEmpty) = true
  · rw [if_pos he]
    exact ⟨trivial, fun _ => trivial, fun _ _ => rfl⟩
  · rw [if_neg he]
    dsimp only
    by_cases hd : min ((((99 * H) / 100 : ℕ) : ℤ)) ((rows.getLastD 0 : ℕ) + (pad : ℤ)) ≤
        max (((H / 100 : ℕ) : ℤ)) ((rows.headD 0 : ℕ) - (pad : ℤ)) ∨
      min ((((99 * W) / 100 : ℕ) : ℤ)) ((cols.getLastD 0 : ℕ) + (pad : ℤ)) ≤
        max (((W / 100 : ℕ) : ℤ)) ((cols.headD 0 : ℕ) - (pad : ℤ))
    · rw [if_pos hd]
      exact ⟨trivial, fun _ => trivial, fun h _ => absurd h he⟩
    · rw [if_neg hd]
      push_neg at hd
      refine ⟨⟨?_, ?_, ?_, ?_⟩, fun _ => ⟨?_, ?_⟩, fun h _ => absurd h he⟩ <;> omega
  · rw [if_pos he]
    refine ⟨⟨?_, ?_, ?_, ?_⟩, fun hc => absurd hc (by simp),
      fun _ hc => absurd hc (by simp)⟩ <;> omega
  · rw [if_neg he]
    dsimp only
    split_ifs with hd ht <;>
      refine ⟨⟨?_, ?_, ?_, ?_⟩, fun hc => absurd hc (by simp),
        fun h _ => absurd h he⟩ <;> omega

/-- Witness for the amended C4 theorem at a concrete ink-only input. -/
theorem final_crop_in_bounds_witness :
    (none : Option (ℕ × ℕ × ℕ × ℕ)) = none ∧
    AutoEval.crop_in_bounds 1000 800
      (AutoEval.final_hybrid_crop_after_deskew 1000 800 10 [100, 900] [50, 700] none) ∧
    AutoEval.crop_pos
      (AutoEval.final_hybrid_crop_after_deskew 1000 800 10 [100, 900] [50, 700] none) :=
  ⟨rfl,
   (final_crop_in_bounds_and_no_paper_box_positive 1000 800 10 [100, 900] [50, 700] none).1,
   (final_crop_in_bounds_and_no_paper_box_positive 1000 800 10 [100, 900] [50, 700] none).2.1 rfl⟩

/-- Witness for the C2 theorem: monotonicity at matches=10, inliers 3 ≤ 5. -/
theorem confidence_formula_monotone_bounded_witness :
    ((0 : ℤ) < 10 ∧ (3 : ℤ) ≤ 5 ∧ (1/2 : ℚ) ≤ 3/4) ∧
    (AutoEval.compute_alignment_confidence_from_stats 10 3 0 false 0 ≤
       AutoEval.compute_alignment_confidence_from_stats 10 5 0 false 0) ∧
    (0 ≤ AutoEval.compute_alignment_confidence_from_stats 0 0 0 true (1/2) ∧
       AutoEval.compute_alignment_confidence_from_stats 0 0 0 true (1/2) ≤ 1) :=
  ⟨⟨by norm_num, by norm_num, by norm_num⟩,
   (confidence_formula_monotone_bounded 10 3 5 0 (1/2) (3/4)
      (by norm_num) (by norm_num) (by norm_num)).2.2.2.1,
   (confidence_formula_monotone_bounded 10 3 5 0 (1/2) (3/4)
      (by norm_num) (by norm_num) (by norm_num)).2.2.2.2.2.2⟩

namespace AutoEval

/-! ### TransformAnalyzer
`decompose_homography` (Segment.py lines 153-201) and
`measure_perspective_from_template_to_image` (lines 203-226), over `ℝ`
because the source takes square roots, `atan2` and divides by projective
terms.  A 3×3 homography is a record of its nine entries; a 2×2 matrix is a
record `[[a, b], [c, d]]`.  `np.linalg.svd` is a library call; its
documented contract (factors with orthonormal rows/columns and descending
non-negative singular values) enters the theorems as hypotheses on the
`U`, `s`, `Vt` values that the embedding of `decompose_homography` takes as
explicit arguments. -/

/-- A 3×3 homography, row-major entries. -/
structure Hom3 where
  h00 : ℝ
  h01 : ℝ
  h02 : ℝ
  h10 : ℝ
  h11 : ℝ
  h12 : ℝ
  h20 : ℝ
  h21 : ℝ
  h22 : ℝ

/-- A 2×2 real matrix `[[a, b], [c, d]]`. -/
structure Mat2 where
  a : ℝ
  b : ℝ
  c : ℝ
  d : ℝ

noncomputable def Mat2.mul (M N : Mat2) : Mat2 :=
  ⟨M.a * N.a + M.b * N.c, M.a * N.b + M.b * N.d,
   M.c * N.a + M.d * N.c, M.c * N.b + M.d * N.d⟩

noncomputable def Mat2.transpose (M : Mat2) : Mat2 := ⟨M.a, M.c, M.b, M.d⟩

noncomputable def Mat2.det (M : Mat2) : ℝ := M.a * M.d - M.b * M.c

/-- `Vt[-1,:] *= -1`: negate the last row. -/
noncomputable def Mat2.negRow2 (M : Mat2) : Mat2 := ⟨M.a, M.b, -M.c, -M.d⟩

noncomputable def Mat2.idm : Mat2 := ⟨1, 0, 0, 1⟩

/-- `math.atan2 y x`, embedded as the argument of the complex number
`x + y·i`, with range `(-π, π]`. -/
noncomputable def atan2 (y x : ℝ) : ℝ := Complex.arg (Complex.mk x y)

/-- The normalization prologue of `decompose_homography`: divide by `H[2,2]`
(with an epsilon shift when `|H[2,2]|` is tiny). -/
noncomputable def normalizeH (H : Hom3) : Hom3 :=
  let s : ℝ := if |H.h22| < 1e-12 then 1 / (H.h22 + 1e-12) else 1 / H.h22
  ⟨H.h00 * s, H.h01 * s, H.h02 * s, H.h10 * s, H.h11 * s, H.h12 * s,
   H.h20 * s, H.h21 * s, H.h22 * s⟩

/-- The affine 2×2 block `A = H[0:2, 0:2]`. -/
noncomputable def linPart (H : Hom3) : Mat2 := ⟨H.h00, H.h01, H.h10, H.h11⟩

structure TransformParams where
  rotation_deg : ℝ
  scale_x : ℝ
  scale_y : ℝ
  shear : ℝ
  tx : ℝ
  ty : ℝ
  h20 : ℝ
  h21 : ℝ

/-- `decompose_homography`, SVD branch.  `U`, `Vt`, `s0 ≥ s1` stand for the
values `np.linalg.svd(A)` returned; the det-correction and every use the code
makes of them are embedded verbatim. -/
noncomputable def decompose_homography (H : Hom3) (U Vt : Mat2) (s0 s1 : ℝ) :
    TransformParams :=
  let Hn := normalizeH H
  let A := linPart Hn
  let R0 := U.mul Vt
  let R := if R0.det < 0 then U.mul Vt.negRow2 else R0
  let S := R.transpose.mul A
  { rotation_deg := atan2 R.c R.a * 180 / Real.pi
    scale_x := s0
    scale_y := s1
    shear := S.b
    tx := Hn.h02
    ty := Hn.h12
    h20 := Hn.h20
    h21 := Hn.h21 }

/-- `decompose_homography`, exception-fallback branch: `R = I`,
scales = column norms of `A`. -/
noncomputable def decompose_homography_fallback (H : Hom3) : TransformParams :=
  let Hn := normalizeH H
  let A := linPart Hn
  { rotation_deg := atan2 (0 : ℝ) 1 * 180 / Real.pi
    scale_x := Real.sqrt (A.a ^ 2 + A.c ^ 2)
    scale_y := Real.sqrt (A.b ^ 2 + A.d ^ 2)
    shear := A.b
    tx := Hn.h02
    ty := Hn.h12
    h20 := Hn.h20
    h21 := Hn.h21 }

/-! ### Perspective metrics -/

/-- `cv2.perspectiveTransform` on one point. -/
noncomputable def perspApply (M : Hom3) (x y : ℝ) : ℝ × ℝ :=
  let w := M.h20 * x + M.h21 * y + M.h22
  ((M.h00 * x + M.h01 * y + M.h02) / w, (M.h10 * x + M.h11 * y + M.h12) / w)

/-- Euclidean distance between two mapped points. -/
noncomputable def pdist (p q : ℝ × ℝ) : ℝ :=
  Real.sqrt ((q.1 - p.1) ^ 2 + (q.2 - p.2) ^ 2)

/-- The four side lengths of the mapped template-corner quadrilateral. -/
noncomputable def persp_sides (M : Hom3) (tw th : ℝ) : ℝ × ℝ × ℝ × ℝ :=
  let c0 := perspApply M 0 0
  let c1 := perspApply M (tw - 1) 0
  let c2 := perspApply M (tw - 1) (th - 1)
  let c3 := perspApply M 0 (th - 1)
  (pdist c0 c1, pdist c1 c2, pdist c2 c3, pdist c3 c0)

noncomputable def persp_min_side (M : Hom3) (tw th : ℝ) : ℝ :=
  let s := persp_sides M tw th
  min (min s.1 s.2.1) (min s.2.2.1 s.2.2.2)

noncomputable def persp_max_side (M : Hom3) (tw th : ℝ) : ℝ :=
  let s := persp_sides M tw th
  max (max s.1 s.2.1) (max s.2.2.1 s.2.2.2)

/-- `measure_perspective_from_template_to_image`: the reported
`perspective_distortion_pct`. -/
noncomputable def measure_perspective_distortion (M : Hom3) (tw th : ℝ) : ℝ :=
  if persp_min_side M tw th ≤ 1e-6 then 0
  else (persp_max_side M tw th / persp_min_side M tw th - 1) * 100

/-- The `perspective_distortion_pct` that `process_single_image` /
`process_single_image_with_alignment` report (lines 405-418 / 691-704):
computed from the homography when one exists, `0.0` otherwise. -/
noncomputable def process_perspective_distortion (oH : Option Hom3) (tw th : ℝ) : ℝ :=
  match oH with
  | some M => measure_perspective_distortion M tw th
  | none => 0

/-- The identity homography (affine: bottom row `[0, 0, 1]`). -/
noncomputable def idHom : Hom3 := ⟨1, 0, 0, 0, 1, 0, 0, 0, 1⟩

end AutoEval

theorem persp_sides_idHom :
    AutoEval.persp_sides AutoEval.idHom 1700 2200 = (1699, 2199, 1699, 2199) := by
  unfold AutoEval.persp_sides AutoEval.perspApply AutoEval.pdist AutoEval.idHom
  norm_num
  have h1 : Real.sqrt 2886601 = 1699 := by
    rw [show (2886601 : ℝ) = 1699 ^ 2 by norm_num]
    exact Real.sqrt_sq (by norm_num)
  have h2 : Real.sqrt 4835601 = 2199 := by
    rw [show (4835601 : ℝ) = 2199 ^ 2 by norm_num]
    exact Real.sqrt_sq (by norm_num)
  exact ⟨h1, h2, h1, h2⟩

/-- C6 counterexample: a purely affine homography (bottom row `[0, 0, 1]`) —
here the identity — does NOT get a zero `perspective_distortion_pct`:
the mapped 1700×2200 template rectangle has sides 1699 and 2199, so
`measure_perspective_from_template_to_image` reports
`(2199/1699 − 1)·100 = 50000/1699 ≈ 29.4`, not 0. -/
theorem perspective_affine_nonzero_counterexample :
    AutoEval.idHom.h20 = 0 ∧ AutoEval.idHom.h21 = 0 ∧ AutoEval.idHom.h22 = 1 ∧
    AutoEval.measure_perspective_distortion AutoEval.idHom 1700 2200 = 50000 / 1699 ∧
    AutoEval.measure_perspective_distortion AutoEval.idHom 1700 2200 ≠ 0 := by
  have hmin : AutoEval.persp_min_side AutoEval.idHom 1700 2200 = 1699 := by
    unfold AutoEval.persp_min_side
    rw [persp_sides_idHom]
    norm_num
  have hmax : AutoEval.persp_max_side AutoEval.idHom 1700 2200 = 2199 := by
    unfold AutoEval.persp_max_side
    rw [persp_sides_idHom]
    norm_num
  have hval : AutoEval.measure_perspective_distortion AutoEval.idHom 1700 2200 = 50000 / 1699 := by
    unfold AutoEval.measure_perspective_distortion
    rw [hmin, hmax]
    norm_num
  exact ⟨rfl, rfl, rfl, hval, by rw [hval]; norm_num⟩

/-- C6 (amended): when no homography is available (identity and resize
paths, `H_img_to_template = None`), the reported `perspective_distortion_pct`
is 0; when a homography is present the code reports
`(max_side/min_side − 1)·100` of the mapped corner quadrilateral regardless
of affineness, and that value is 0 iff either the minimum side is ≤ 1e-6 or
the maximum and minimum mapped side lengths coincide — a purely affine map
generally yields a nonzero value. -/
theorem perspective_distortion_zero_iff (tw th : ℝ) (M : AutoEval.Hom3) :
    AutoEval.process_perspective_distortion none tw th = 0 ∧
    AutoEval.process_perspective_distortion (some M) tw th =
      AutoEval.measure_perspective_distortion M tw th ∧
    (AutoEval.measure_perspective_distortion M tw th = 0 ↔
      (AutoEval.persp_min_side M tw th ≤ 1e-6 ∨
       AutoEval.persp_max_side M tw th = AutoEval.persp_min_side M tw th)) := by
  refine ⟨rfl, rfl, ?_⟩
  unfold AutoEval.measure_perspective_distortion
  by_cases h : AutoEval.persp_min_side M tw th ≤ 1e-6
  · simp [h]
  · rw [if_neg h]
    have hmn : AutoEval.persp_min_side M tw th ≠ 0 := by
      intro h0
      apply h
      rw [h0]
      norm_num
    constructor
    · intro h0
      right
      rcases mul_eq_zero.mp h0 with h1 | h1
      · have hq : AutoEval.persp_max_side M tw th / AutoEval.persp_min_side M tw th = 1 := by
          linarith
        field_simp at hq
        exact hq
      · norm_num at h1
    · rintro (h' | h')
      · exact absurd h' h
      · rw [h', div_self hmn]
        ring

theorem atan2_deg_bounds (y x : ℝ) :
    -180 < AutoEval.atan2 y x * 180 / Real.pi ∧ AutoEval.atan2 y x * 180 / Real.pi ≤ 180 := by
  have hπ : (0 : ℝ) < Real.pi := Real.pi_pos
  have hc : (0 : ℝ) < 180 / Real.pi := by positivity
  have hlo : -Real.pi < AutoEval.atan2 y x := Complex.neg_pi_lt_arg _
  have hhi : AutoEval.atan2 y x ≤ Real.pi := Complex.arg_le_pi _
  have hform : AutoEval.atan2 y x * 180 / Real.pi = AutoEval.atan2 y x * (180 / Real.pi) := by
    ring
  have hpi180 : Real.pi * (180 / Real.pi) = 180 := by
    field_simp
  constructor
  · rw [hform]
    have := mul_lt_mul_of_pos_right hlo hc
    calc (-180 : ℝ) = -Real.pi * (180 / Real.pi) := by
          rw [neg_mul, hpi180]
      _ < AutoEval.atan2 y x * (180 / Real.pi) := this
  · rw [hform]
    calc AutoEval.atan2 y x * (180 / Real.pi) ≤ Real.pi * (180 / Real.pi) :=
          mul_le_mul_of_nonneg_right hhi hc.le
      _ = 180 := hpi180

/-- C7: for every 3×3 homography, the TransformParams produced by
`decompose_homography` satisfy `scale_x, scale_y ≥ 0` and
`rotation_deg ∈ (−180, 180]`, on the SVD branch (whenever the singular
values `np.linalg.svd` supplies are non-negative, as its contract
guarantees) and unconditionally on the exception-fallback branch
(`R = I`, scales = column norms). -/
theorem decompose_homography_invariants (H : AutoEval.Hom3) (U Vt : AutoEval.Mat2)
    (s0 s1 : ℝ) (hs0 : 0 ≤ s0) (hs1 : 0 ≤ s1) :
    (0 ≤ (AutoEval.decompose_homography H U Vt s0 s1).scale_x ∧
     0 ≤ (AutoEval.decompose_homography H U Vt s0 s1).scale_y ∧
     -180 < (AutoEval.decompose_homography H U Vt s0 s1).rotation_deg ∧
     (AutoEval.decompose_homography H U Vt s0 s1).rotation_deg ≤ 180) ∧
    (0 ≤ (AutoEval.decompose_homography_fallback H).scale_x ∧
     0 ≤ (AutoEval.decompose_homography_fallback H).scale_y ∧
     -180 < (AutoEval.decompose_homography_fallback H).rotation_deg ∧
     (AutoEval.decompose_homography_fallback H).rotation_deg ≤ 180) :=
  ⟨⟨hs0, hs1, (atan2_deg_bounds _ _).1, (atan2_deg_bounds _ _).2⟩,
   ⟨Real.sqrt_nonneg _, Real.sqrt_nonneg _,
    (atan2_deg_bounds _ _).1, (atan2_deg_bounds _ _).2⟩⟩

/-- Witness for the C7 theorem at the identity homography with the trivial
SVD `U = Vt = I`, `s = (1, 1)`. -/
theorem decompose_homography_invariants_witness :
    ((0 : ℝ) ≤ 1 ∧ (0 : ℝ) ≤ 1) ∧
    (0 ≤ (AutoEval.decompose_homography AutoEval.idHom AutoEval.Mat2.idm
            AutoEval.Mat2.idm 1 1).scale_x ∧
     0 ≤ (AutoEval.decompose_homography AutoEval.idHom AutoEval.Mat2.idm
            AutoEval.Mat2.idm 1 1).scale_y ∧
     -180 < (AutoEval.decompose_homography AutoEval.idHom AutoEval.Mat2.idm
            AutoEval.Mat2.idm 1 1).rotation_deg ∧
     (AutoEval.decompose_homography AutoEval.idHom AutoEval.Mat2.idm
            AutoEval.Mat2.idm 1 1).rotation_deg ≤ 180) :=
  ⟨⟨by norm_num, by norm_num⟩,
   (decompose_homography_invariants AutoEval.idHom AutoEval.Mat2.idm AutoEval.Mat2.idm 1 1
      (by norm_num) (by norm_num)).1⟩

namespace AutoEval

/-! ### RowSegmenter
`split_rows` (model.py lines 355-386) and `attach_answer_boxes`
(lines 388-414).  The row-wise ink projection `proj` is produced by image
filtering (`threshold_local`); the embedding takes it as a function
`ℕ → ℚ` of the row index together with the image size, and takes the header
cutoff `top_cut = int(H*min_y_frac)` directly.  Rectangles are `(x, y, w, h)`
tuples.  The per-row answer-box contour search inside the band is a
vision-library call; it is abstracted as a function from the row rectangle to
an optional box, which is all `attach_answer_boxes` uses it for. -/

abbrev Rect : Type := ℕ × ℕ × ℕ × ℕ

/-- Top coordinate of a rectangle. -/
def rtop (r : Rect) : ℕ := r.2.1

/-- Height of a rectangle. -/
def rh (r : Rect) : ℕ := r.2.2.2

/-- Bottom edge (one past) of a rectangle. -/
def rend (r : Rect) : ℕ := r.2.1 + r.2.2.2

/-- The scan loop of `split_rows`: walk `y = 0 .. H-1` keeping the in-run
state; close a run at the first `y` with `proj[y] ≤ thresh` (or at the last
row) and keep it when it is at least `min_h` tall.  Runs are recorded as
`(y0, y1)` index pairs. -/
def segLoop (proj : ℕ → ℚ) (thresh : ℚ) (H minH : ℕ) (y : ℕ) (inSeg : Bool) (y0 : ℕ)
    (acc : List (ℕ × ℕ)) : List (ℕ × ℕ) :=
  if hy : y < H then
    if thresh < proj y ∧ inSeg = false then
      segLoop proj thresh H minH (y + 1) true y acc
    else if (proj y ≤ thresh ∨ y = H - 1) ∧ inSeg = true then
      segLoop proj thresh H minH (y + 1) false y0
        (if minH ≤ y - y0 then acc ++ [(y0, y)] else acc)
    else
      segLoop proj thresh H minH (y + 1) inSeg y0 acc
  else acc
termination_by H - y
decreasing_by all_goals omega

/-- The kept ink runs of `split_rows`. -/
def segRuns (proj : ℕ → ℚ) (thresh : ℚ) (H minH : ℕ) : List (ℕ × ℕ) :=
  segLoop proj thresh H minH 0 false 0 []

/-- One step of the merge loop: python appends to `merged` and mutates
`merged[-1]`, so the accumulator here is kept in reverse (most recent entry
first) and reversed at the end. -/
def mergeStep (acc : List Rect) (seg : Rect) : List Rect :=
  match acc with
  | [] => [seg]
  | last :: rest =>
    if seg.2.1 ≤ last.2.1 + last.2.2.2 + 12 then
      (last.1, last.2.1, last.2.2.1, (seg.2.1 + seg.2.2.2) - last.2.1) :: rest
    else seg :: last :: rest

/-- The merge loop of `split_rows`: collapse segments whose tops are within
12 px of the previous merged segment's bottom. -/
def mergeRows (segs : List Rect) : List Rect := (segs.foldl mergeStep []).reverse

/-- The header-cutoff filter of `split_rows`: clamp each merged segment's
top to `top_cut` and keep it when something of it remains below the cut. -/
def cutRows (tc : ℕ) (merged : List Rect) : List Rect :=
  merged.filterMap (fun r =>
    let y := r.2.1
    let h := r.2.2.2
    let y2 := max y tc
    if tc < y + h ∧ y2 - y < h then some (r.1, y2, r.2.2.1, (y + h) - y2) else none)

/-- `split_rows`: threshold at 0.4·mean of the projection, scan for runs of
at least `max(40, H//40)` rows, pad them by 4 px clamped to the image,
merge 12-px-close segments, then apply the header cutoff. -/
def split_rows (H W : ℕ) (proj : ℕ → ℚ) (tc : ℕ) : List Rect :=
  let thresh : ℚ := (((List.range H).map proj).sum / H) * (4/10)
  let minH := max 40 (H / 40)
  let segs := (segRuns proj thresh H minH).map
    (fun r => ((0 : ℕ), r.1 - 4, W, min (H - 1) (r.2 + 4) - (r.1 - 4)))
  cutRows tc (mergeRows segs)

/-- A segmented row as `attach_answer_boxes` returns it. -/
structure Row where
  id : String
  bbox : Rect
  answer_box_bbox : Option Rect
  type : String
  confidence : ℚ

/-- The numbering loop of `attach_answer_boxes`: ids `q1, q2, …` in list
order; a row whose vertical midpoint lies in the band is `mcq` (with the
nearest square-ish component, abstracted as `findBox`), otherwise `text`. -/
def attachAux (band : Rect) (findBox : Rect → Option Rect) : ℕ → List Rect → List Row
  | _, [] => []
  | qid, r :: rs =>
    (if band.2.1 ≤ r.2.1 + r.2.2.2 / 2 ∧ r.2.1 + r.2.2.2 / 2 ≤ band.2.1 + band.2.2.2 then
       Row.mk ("q" ++ toString qid) r (findBox r) "mcq" (86/100)
     else
       Row.mk ("q" ++ toString qid) r none "text" (72/100)) ::
    attachAux band findBox (qid + 1) rs

/-- Stable insertion sort by top coordinate (`sorted(rows, key=r[1])`). -/
def insertByTop (r : Rect) : List Rect → List Rect
  | [] => [r]
  | s :: ss => if r.2.1 ≤ s.2.1 then r :: s :: ss else s :: insertByTop r ss

def sortByTop : List Rect → List Rect
  | [] => []
  | r :: rs => insertByTop r (sortByTop rs)

/-- `attach_answer_boxes`. -/
def attach_answer_boxes (rows : List Rect) (band : Rect)
    (findBox : Rect → Option Rect) : List Row :=
  attachAux band findBox 1 (sortByTop rows)

end AutoEval

theorem segLoop_props (proj : ℕ → ℚ) (thresh : ℚ) (H minH : ℕ) :
    ∀ (n y : ℕ) (inSeg : Bool) (y0 : ℕ) (acc : List (ℕ × ℕ)),
      H - y ≤ n →
      (∀ r ∈ acc, minH ≤ r.2 - r.1 ∧ r.1 ≤ r.2 ∧ r.2 < y ∧ r.2 ≤ H - 1) →
      acc.Pairwise (fun r r' => r.2 < r'.1) →
      (inSeg = true → (∀ r ∈ acc, r.2 < y0) ∧ y0 < y) →
      (∀ r ∈ AutoEval.segLoop proj thresh H minH y inSeg y0 acc,
          minH ≤ r.2 - r.1 ∧ r.1 ≤ r.2 ∧ r.2 ≤ H - 1) ∧
      (AutoEval.segLoop proj thresh H minH y inSeg y0 acc).Pairwise
        (fun r r' => r.2 < r'.1) := by
  intro n
  induction n with
  | zero =>
    intro y inSeg y0 acc hn hacc hpair _
    rw [AutoEval.segLoop, dif_neg (by omega : ¬ y < H)]
    refine ⟨fun r hr => ?_, hpair⟩
    obtain ⟨a, b, _, c⟩ := hacc r hr
    exact ⟨a, b, c⟩
  | succ n ih =>
    intro y inSeg y0 acc hn hacc hpair hseg
    by_cases hy : y < H
    · rw [AutoEval.segLoop, dif_pos hy]
      by_cases h1 : thresh < proj y ∧ inSeg = false
      · rw [if_pos h1]
        apply ih (y + 1) true y acc (by omega)
        · intro r hr
          obtain ⟨a, b, c, d⟩ := hacc r hr
          exact ⟨a, b, by omega, d⟩
        · exact hpair
        · intro _
          exact ⟨fun r hr => (hacc r hr).2.2.1, by omega⟩
      · rw [if_neg h1]
        by_cases h2 : (proj y ≤ thresh ∨ y = H - 1) ∧ inSeg = true
        · rw [if_pos h2]
          obtain ⟨hends, hy0⟩ := hseg h2.2
          by_cases h3 : minH ≤ y - y0
          · rw [if_pos h3]
            apply ih (y + 1) false y0 (acc ++ [(y0, y)]) (by omega)
            · intro r hr
              rcases List.mem_append.mp hr with hr | hr
              · obtain ⟨a, b, c, d⟩ := hacc r hr
                exact ⟨a, b, by omega, d⟩
              · rcases List.mem_singleton.mp hr with rfl
                exact ⟨h3, by omega, by omega, by omega⟩
            · rw [List.pairwise_append]
              refine ⟨hpair, List.pairwise_singleton _ _, ?_⟩
              intro a ha b hb
              rcases List.mem_singleton.mp hb with rfl
              exact hends a ha
            · intro hco
              exact absurd hco (by simp)
          · rw [if_neg h3]
            apply ih (y + 1) false y0 acc (by omega)
            · intro r hr
              obtain ⟨a, b, c, d⟩ := hacc r hr
              exact ⟨a, b, by omega, d⟩
            · exact hpair
            · intro hco
              exact absurd hco (by simp)
        · rw [if_neg h2]
          apply ih (y + 1) inSeg y0 acc (by omega)
          · intro r hr
            obtain ⟨a, b, c, d⟩ := hacc r hr
            exact ⟨a, b, by omega, d⟩
          · exact hpair
          · intro hs
            obtain ⟨he, hlt⟩ := hseg hs
            exact ⟨he, by omega⟩
    · rw [AutoEval.segLoop, dif_neg hy]
      refine ⟨fun r hr => ?_, hpair⟩
      obtain ⟨a, b, _, c⟩ := hacc r hr
      exact ⟨a, b, c⟩

theorem segRuns_props (proj : ℕ → ℚ) (thresh : ℚ) (H minH : ℕ) :
    (∀ r ∈ AutoEval.segRuns proj thresh H minH,
        minH ≤ r.2 - r.1 ∧ r.1 ≤ r.2 ∧ r.2 ≤ H - 1) ∧
    (AutoEval.segRuns proj thresh H minH).Pairwise (fun r r' => r.2 < r'.1) := by
  apply segLoop_props proj thresh H minH H 0 false 0 [] (by omega)
  · intro r hr
    exact absurd hr (List.not_mem_nil r)
  · exact List.Pairwise.nil
  · intro hco
    exact absurd hco (by simp)

theorem mergeStep_cons_eq (last : AutoEval.Rect) (restAcc : List AutoEval.Rect)
    (seg : AutoEval.Rect) :
    AutoEval.mergeStep (last :: restAcc) seg =
      if seg.2.1 ≤ last.2.1 + last.2.2.2 + 12 then
        (last.1, last.2.1, last.2.2.1, (seg.2.1 + seg.2.2.2) - last.2.1) :: restAcc
      else seg :: last :: restAcc := rfl

theorem mergeFold_props :
    ∀ (segs acc : List AutoEval.Rect),
      (∀ s ∈ segs, 0 < AutoEval.rh s) →
      segs.Pairwise (fun s s' => AutoEval.rend s ≤ AutoEval.rend s') →
      (∀ a ∈ acc, 0 < AutoEval.rh a) →
      acc.Pairwise (fun a b => AutoEval.rend b + 12 < AutoEval.rtop a) →
      (∀ a ∈ acc, ∀ s ∈ segs, AutoEval.rend a ≤ AutoEval.rend s) →
      (∀ a ∈ segs.foldl AutoEval.mergeStep acc, 0 < AutoEval.rh a) ∧
      (segs.foldl AutoEval.mergeStep acc).Pairwise
        (fun a b => AutoEval.rend b + 12 < AutoEval.rtop a) := by
  intro segs
  induction segs with
  | nil =>
    intro acc _ _ ha1 ha2 _
    exact ⟨ha1, ha2⟩
  | cons seg rest ih =>
    intro acc hs1 hs2 ha1 ha2 hlink
    rw [List.foldl_cons]
    have hsegh : 0 < AutoEval.rh seg := hs1 seg (List.mem_cons_self _ _)
    have hs1' : ∀ s ∈ rest, 0 < AutoEval.rh s :=
      fun s hs => hs1 s (List.mem_cons_of_mem _ hs)
    obtain ⟨hsegrel, hs2'⟩ := List.pairwise_cons.mp hs2
    cases acc with
    | nil =>
      apply ih [seg] hs1' hs2'
      · intro a ha
        rcases List.mem_singleton.mp ha with rfl
        exact hsegh
      · exact List.pairwise_singleton _ _
      · intro a ha s hs
        rcases List.mem_singleton.mp ha with rfl
        exact hsegrel s hs
    | cons last restAcc =>
      have hlasth : 0 < AutoEval.rh last := ha1 last (List.mem_cons_self _ _)
      have hlastend : AutoEval.rend last ≤ AutoEval.rend seg :=
        hlink last (List.mem_cons_self _ _) seg (List.mem_cons_self _ _)
      obtain ⟨hlastrel, ha2'⟩ := List.pairwise_cons.mp ha2
      rw [mergeStep_cons_eq]
      by_cases hc : seg.2.1 ≤ last.2.1 + last.2.2.2 + 12
      · rw [if_pos hc]
        apply ih _ hs1' hs2'
        · intro a ha
          rcases List.mem_cons.mp ha with rfl | ha
          · simp only [AutoEval.rh, AutoEval.rend, AutoEval.rtop] at *
            omega
          · exact ha1 a (List.mem_cons_of_mem _ ha)
        · rw [List.pairwise_cons]
          refine ⟨fun b hb => ?_, ha2'⟩
          have := hlastrel b hb
          simp only [AutoEval.rend, AutoEval.rtop] at *
          omega
        · intro a ha s hs
          rcases List.mem_cons.mp ha with rfl | ha
          · have := hsegrel s hs
            simp only [AutoEval.rend, AutoEval.rtop, AutoEval.rh] at *
            omega
          · exact le_trans (hlink a (List.mem_cons_of_mem _ ha) seg (List.mem_cons_self _ _))
              (hsegrel s hs)
      · rw [if_neg hc]
        apply ih _ hs1' hs2'
        · intro a ha
          rcases List.mem_cons.mp ha with rfl | ha
          · exact hsegh
          · exact ha1 a ha
        · rw [List.pairwise_cons]
          refine ⟨fun b hb => ?_, ha2⟩
          rcases List.mem_cons.mp hb with rfl | hb
          · simp only [AutoEval.rend, AutoEval.rtop] at *
            omega
          · have h1 := hlastrel b hb
            simp only [AutoEval.rend, AutoEval.rtop, AutoEval.rh] at *
            omega
        · intro a ha s hs
          rcases List.mem_cons.mp ha with rfl | ha
          · exact hsegrel s hs
          · exact le_trans (hlink a ha seg (List.mem_cons_self _ _)) (hsegrel s hs)

theorem mergeRows_props (segs : List AutoEval.Rect)
    (hs1 : ∀ s ∈ segs, 0 < AutoEval.rh s)
    (hs2 : segs.Pairwise (fun s s' => AutoEval.rend s ≤ AutoEval.rend s')) :
    (∀ a ∈ AutoEval.mergeRows segs, 0 < AutoEval.rh a) ∧
    (AutoEval.mergeRows segs).Pairwise
      (fun a b => AutoEval.rend a + 12 < AutoEval.rtop b) := by
  obtain ⟨h1, h2⟩ := mergeFold_props segs []
    hs1 hs2 (fun a ha => absurd ha (List.not_mem_nil a)) List.Pairwise.nil
    (fun a ha => absurd ha (List.not_mem_nil a))
  unfold AutoEval.mergeRows
  constructor
  · intro a ha
    exact h1 a (List.mem_reverse.mp ha)
  · exact List.pairwise_reverse.mpr h2

theorem pairwise_filterMap_of_pairwise {α β : Type} (f : α → Option β)
    (R : α → α → Prop) (S : β → β → Prop) (l : List α)
    (h : ∀ a b, R a b → ∀ x, f a = some x → ∀ y, f b = some y → S x y)
    (hl : l.Pairwise R) : (l.filterMap f).Pairwise S := by
  induction l with
  | nil => simp
  | cons a t ih =>
    obtain ⟨ha, ht⟩ := List.pairwise_cons.mp hl
    cases hf : f a with
    | none =>
      simp only [List.filterMap_cons, hf]
      exact ih ht
    | some x =>
      simp only [List.filterMap_cons, hf]
      rw [List.pairwise_cons]
      refine ⟨?_, ih ht⟩
      intro y hy
      obtain ⟨b, hb, hfb⟩ := List.mem_filterMap.mp hy
      exact h a b (ha b hb) x hf y hfb

theorem cutRows_props (tc : ℕ) (merged : List AutoEval.Rect)
    (_h1 : ∀ a ∈ merged, 0 < AutoEval.rh a)
    (h2 : merged.Pairwise (fun a b => AutoEval.rend a + 12 < AutoEval.rtop b)) :
    (∀ r ∈ AutoEval.cutRows tc merged, tc ≤ AutoEval.rtop r) ∧
    (AutoEval.cutRows tc merged).Pairwise
      (fun a b => AutoEval.rtop a < AutoEval.rtop b ∧ AutoEval.rend a ≤ AutoEval.rtop b) := by
  constructor
  · intro r hr
    obtain ⟨a, _, hfa⟩ := List.mem_filterMap.mp hr
    by_cases hg : tc < a.2.1 + a.2.2.2 ∧ max a.2.1 tc - a.2.1 < a.2.2.2
    · rw [if_pos hg] at hfa
      obtain rfl := Option.some.inj hfa
      simp only [AutoEval.rtop]
      omega
    · rw [if_neg hg] at hfa
      exact absurd hfa (by simp)
  · apply pairwise_filterMap_of_pairwise _
      (fun a b => AutoEval.rend a + 12 < AutoEval.rtop b) _ _ ?_ h2
    intro a b hab x hfa y hfb
    by_cases hga : tc < a.2.1 + a.2.2.2 ∧ max a.2.1 tc - a.2.1 < a.2.2.2
    · rw [if_pos hga] at hfa
      by_cases hgb : tc < b.2.1 + b.2.2.2 ∧ max b.2.1 tc - b.2.1 < b.2.2.2
      · rw [if_pos hgb] at hfb
        obtain rfl := Option.some.inj hfa
        obtain rfl := Option.some.inj hfb
        simp only [AutoEval.rend, AutoEval.rtop] at *
        omega
      · rw [if_neg hgb] at hfb
        exact absurd hfb (by simp)
    · rw [if_neg hga] at hfa
      exact absurd hfa (by simp)

theorem split_rows_props (H W : ℕ) (proj : ℕ → ℚ) (tc : ℕ) :
    (∀ r ∈ AutoEval.split_rows H W proj tc, tc ≤ AutoEval.rtop r) ∧
    (AutoEval.split_rows H W proj tc).Pairwise
      (fun a b => AutoEval.rtop a < AutoEval.rtop b ∧ AutoEval.rend a ≤ AutoEval.rtop b) := by
  obtain ⟨hr1, hr2⟩ := segRuns_props proj
    ((((List.range H).map proj).sum / H) * (4/10)) H (max 40 (H / 40))
  have hs1 : ∀ s ∈ (AutoEval.segRuns proj ((((List.range H).map proj).sum / H) * (4/10))
      H (max 40 (H / 40))).map
      (fun r => ((0 : ℕ), r.1 - 4, W, min (H - 1) (r.2 + 4) - (r.1 - 4))),
      0 < AutoEval.rh s := by
    intro s hs
    obtain ⟨r, hrm, rfl⟩ := List.mem_map.mp hs
    have := hr1 r hrm
    simp only [AutoEval.rh]
    omega
  have hs2 : ((AutoEval.segRuns proj ((((List.range H).map proj).sum / H) * (4/10))
      H (max 40 (H / 40))).map
      (fun r => ((0 : ℕ), r.1 - 4, W, min (H - 1) (r.2 + 4) - (r.1 - 4)))).Pairwise
      (fun s s' => AutoEval.rend s ≤ AutoEval.rend s') := by
    rw [List.pairwise_map]
    apply List.Pairwise.imp_of_mem ?_ hr2
    intro a b ha hb hab
    have h1 := hr1 a ha
    have h2 := hr1 b hb
    simp only [AutoEval.rend]
    omega
  obtain ⟨hm1, hm2⟩ := mergeRows_props _ hs1 hs2
  exact cutRows_props tc _ hm1 hm2

theorem attachAux_map_bbox (band : AutoEval.Rect)
    (findBox : AutoEval.Rect → Option AutoEval.Rect) :
    ∀ (l : List AutoEval.Rect) (qid : ℕ),
      ((AutoEval.attachAux band findBox qid l).map AutoEval.Row.bbox) = l := by
  intro l
  induction l with
  | nil => intro qid; rfl
  | cons r rs ih =>
    intro qid
    simp only [AutoEval.attachAux, List.map_cons]
    rw [ih (qid + 1)]
    congr 1
    by_cases hc : band.2.1 ≤ r.2.1 + r.2.2.2 / 2 ∧ r.2.1 + r.2.2.2 / 2 ≤ band.2.1 + band.2.2.2
    · rw [if_pos hc]
    · rw [if_neg hc]

theorem attachAux_map_id (band : AutoEval.Rect)
    (findBox : AutoEval.Rect → Option AutoEval.Rect) :
    ∀ (l : List AutoEval.Rect) (qid : ℕ),
      ((AutoEval.attachAux band findBox qid l).map AutoEval.Row.id) =
        (List.range l.length).map (fun i => "q" ++ toString (qid + i)) := by
  intro l
  induction l with
  | nil => intro qid; rfl
  | cons r rs ih =>
    intro qid
    simp only [AutoEval.attachAux, List.map_cons, List.length_cons,
      List.range_succ_eq_map, List.map_map]
    rw [ih (qid + 1)]
    congr 1
    · by_cases hc : band.2.1 ≤ r.2.1 + r.2.2.2 / 2 ∧ r.2.1 + r.2.2.2 / 2 ≤ band.2.1 + band.2.2.2
      · rw [if_pos hc]
        simp
      · rw [if_neg hc]
        simp
    · apply List.map_congr_left
      intro i _
      have he : qid + 1 + i = qid + (i + 1) := by omega
      show "q" ++ toString (qid + 1 + i) = "q" ++ toString (qid + (i + 1))
      rw [he]

theorem sortByTop_eq_self (l : List AutoEval.Rect)
    (hl : l.Pairwise (fun a b => AutoEval.rtop a < AutoEval.rtop b)) :
    AutoEval.sortByTop l = l := by
  induction l with
  | nil => rfl
  | cons r rs ih =>
    obtain ⟨h1, h2⟩ := List.pairwise_cons.mp hl
    show AutoEval.insertByTop r (AutoEval.sortByTop rs) = r :: rs
    rw [ih h2]
    cases rs with
    | nil => rfl
    | cons s ss =>
      show (if r.2.1 ≤ s.2.1 then r :: s :: ss else s :: AutoEval.insertByTop r ss) = _
      rw [if_pos (show r.2.1 ≤ s.2.1 from le_of_lt (h1 s (List.mem_cons_self _ _)))]

/-- C5: the rows produced by `split_rows` followed by `attach_answer_boxes`
(for every image height/width, ink projection, answer band and cutoff) have
strictly increasing top coordinates, are pairwise vertically disjoint, have
no top edge above the cutoff, and carry ids `q1, q2, …` assigned sequentially
from 1 in top-to-bottom order. -/
theorem split_rows_attach_answer_boxes_properties
    (H W : ℕ) (proj : ℕ → ℚ) (tc : ℕ) (band : AutoEval.Rect)
    (findBox : AutoEval.Rect → Option AutoEval.Rect) :
    (∀ r ∈ AutoEval.split_rows H W proj tc, tc ≤ AutoEval.rtop r) ∧
    (AutoEval.split_rows H W proj tc).Pairwise
      (fun a b => AutoEval.rtop a < AutoEval.rtop b ∧ AutoEval.rend a ≤ AutoEval.rtop b) ∧
    ((AutoEval.attach_answer_boxes (AutoEval.split_rows H W proj tc) band findBox).map
        AutoEval.Row.bbox = AutoEval.split_rows H W proj tc) ∧
    ((AutoEval.attach_answer_boxes (AutoEval.split_rows H W proj tc) band findBox).map
        AutoEval.Row.id =
      (List.range (AutoEval.split_rows H W proj tc).length).map
        (fun i => "q" ++ toString (1 + i))) := by
  obtain ⟨ha, hb⟩ := split_rows_props H W proj tc
  have hsort : AutoEval.sortByTop (AutoEval.split_rows H W proj tc) =
      AutoEval.split_rows H W proj tc :=
    sortByTop_eq_self _ (hb.imp (fun h => h.1))
  refine ⟨ha, hb, ?_, ?_⟩
  · unfold AutoEval.attach_answer_boxes
    rw [hsort]
    exact attachAux_map_bbox band findBox _ 1
  · unfold AutoEval.attach_answer_boxes
    rw [hsort]
    exact attachAux_map_id band findBox _ 1

namespace AutoEval

/-! ### 2×2 matrix algebra used to reason about the SVD contract -/

noncomputable def Mat2.diag (x y : ℝ) : Mat2 := ⟨x, 0, 0, y⟩

noncomputable def Mat2.trace (M : Mat2) : ℝ := M.a + M.d

theorem Mat2.ext_of (M N : Mat2) (h1 : M.a = N.a) (h2 : M.b = N.b)
    (h3 : M.c = N.c) (h4 : M.d = N.d) : M = N := by
  cases M
  cases N
  simp_all

theorem Mat2.mul_assoc (M N P : Mat2) : (M.mul N).mul P = M.mul (N.mul P) := by
  simp only [Mat2.mul, Mat2.mk.injEq]
  refine ⟨?_, ?_, ?_, ?_⟩ <;> ring

theorem Mat2.idm_mul (M : Mat2) : Mat2.idm.mul M = M := by
  apply Mat2.ext_of <;> simp [Mat2.mul, Mat2.idm]

theorem Mat2.mul_idm (M : Mat2) : M.mul Mat2.idm = M := by
  apply Mat2.ext_of <;> simp [Mat2.mul, Mat2.idm]

theorem Mat2.transpose_mul (M N : Mat2) :
    (M.mul N).transpose = N.transpose.mul M.transpose := by
  simp only [Mat2.mul, Mat2.transpose, Mat2.mk.injEq]
  refine ⟨?_, ?_, ?_, ?_⟩ <;> ring

theorem Mat2.det_mul (M N : Mat2) : (M.mul N).det = M.det * N.det := by
  simp only [Mat2.mul, Mat2.det]
  ring

theorem Mat2.det_transpose (M : Mat2) : M.transpose.det = M.det := by
  simp only [Mat2.transpose, Mat2.det]
  ring

theorem Mat2.trace_mul_comm (M N : Mat2) : (M.mul N).trace = (N.mul M).trace := by
  simp only [Mat2.mul, Mat2.trace]
  ring

theorem Mat2.det_idm : Mat2.idm.det = 1 := by
  simp [Mat2.det, Mat2.idm]

theorem Mat2.trace_idm : Mat2.idm.trace = 2 := by
  simp [Mat2.trace, Mat2.idm]
  norm_num

end AutoEval

theorem nonneg_sq_inj (a b : ℝ) (ha : 0 ≤ a) (hb : 0 ≤ b) (h : a ^ 2 = b ^ 2) : a = b :=
  (sq_eq_sq₀ ha hb).mp h

theorem sorted_roots (s0 s1 sx sy : ℝ) (h1 : 0 ≤ s1) (h2 : s1 ≤ s0)
    (_hx : 0 < sx) (_hy : 0 < sy)
    (hsum : s0 + s1 = sx + sy) (hprod : s0 * s1 = sx * sy) :
    s0 = max sx sy ∧ s1 = min sx sy := by
  have hz : (s0 - sx) * (s0 - sy) = 0 := by nlinarith
  rcases mul_eq_zero.mp hz with hz | hz
  · have hx0 : s0 = sx := by linarith
    have hy1 : s1 = sy := by linarith
    rcases le_total sy sx with hle | hle
    · rw [max_eq_left hle, min_eq_right hle]
      exact ⟨hx0, hy1⟩
    · rw [max_eq_right hle, min_eq_left hle]
      constructor <;> linarith
  · have hx0 : s0 = sy := by linarith
    have hy1 : s1 = sx := by linarith
    rcases le_total sy sx with hle | hle
    · rw [max_eq_left hle, min_eq_right hle]
      constructor <;> linarith
    · rw [max_eq_right hle, min_eq_left hle]
      exact ⟨hx0, hy1⟩

namespace AutoEval

/-- The homography of C8's scenario: linear block `R(θ)·diag(sx,sy)`
(zero shear), translation `(tx,ty)`, zero projective terms, `h22 = 1`. -/
noncomputable def rotScaleHom (θ sx sy tx ty : ℝ) : Hom3 :=
  ⟨Real.cos θ * sx, -Real.sin θ * sy, tx,
   Real.sin θ * sx, Real.cos θ * sy, ty, 0, 0, 1⟩

theorem normalizeH_of_h22_one (H : Hom3) (h : H.h22 = 1) : normalizeH H = H := by
  cases H with
  | mk h00 h01 h02 h10 h11 h12 h20 h21 h22 =>
    simp only at h
    subst h
    unfold normalizeH
    have hlt : ¬ |(1 : ℝ)| < 1e-12 := by norm_num
    simp only [hlt, if_false]
    norm_num

theorem decompose_homography_rotation_eq (H : Hom3) (U Vt : Mat2) (s0 s1 : ℝ) :
    (decompose_homography H U Vt s0 s1).rotation_deg =
      atan2 (if (U.mul Vt).det < 0 then U.mul Vt.negRow2 else U.mul Vt).c
            (if (U.mul Vt).det < 0 then U.mul Vt.negRow2 else U.mul Vt).a
        * 180 / Real.pi := rfl

theorem decompose_homography_scale_x_eq (H : Hom3) (U Vt : Mat2) (s0 s1 : ℝ) :
    (decompose_homography H U Vt s0 s1).scale_x = s0 := rfl

theorem decompose_homography_scale_y_eq (H : Hom3) (U Vt : Mat2) (s0 s1 : ℝ) :
    (decompose_homography H U Vt s0 s1).scale_y = s1 := rfl

theorem atan2_sin_cos (θ : ℝ) (hθ : θ ∈ Set.Ioc (-Real.pi) Real.pi) :
    atan2 (Real.sin θ) (Real.cos θ) = θ := by
  unfold atan2
  rw [Complex.mk_eq_add_mul_I, Complex.ofReal_cos, Complex.ofReal_sin]
  exact Complex.arg_cos_add_sin_mul_I hθ

end AutoEval

namespace AutoEval

theorem polar_square (M P A : Mat2) (hMP : M.mul P = A)
    (hMtM : M.transpose.mul M = Mat2.idm) (hPt : P.transpose = P) :
    P.mul P = A.transpose.mul A := by
  calc P.mul P = P.transpose.mul (Mat2.idm.mul P) := by rw [hPt, Mat2.idm_mul]
    _ = P.transpose.mul ((M.transpose.mul M).mul P) := by rw [hMtM]
    _ = P.transpose.mul (M.transpose.mul (M.mul P)) := by
        rw [Mat2.mul_assoc M.transpose M P]
    _ = (P.transpose.mul M.transpose).mul (M.mul P) := by
        rw [Mat2.mul_assoc P.transpose M.transpose (M.mul P)]
    _ = (M.mul P).transpose.mul (M.mul P) := by rw [Mat2.transpose_mul M P]
    _ = A.transpose.mul A := by rw [hMP]

theorem sandwich_self (S Vt : Mat2) (hV2 : Vt.mul Vt.transpose = Mat2.idm) :
    (Vt.transpose.mul (S.mul Vt)).mul (Vt.transpose.mul (S.mul Vt)) =
      Vt.transpose.mul ((S.mul S).mul Vt) := by
  calc (Vt.transpose.mul (S.mul Vt)).mul (Vt.transpose.mul (S.mul Vt))
      = Vt.transpose.mul ((S.mul Vt).mul (Vt.transpose.mul (S.mul Vt))) := by
        rw [Mat2.mul_assoc Vt.transpose (S.mul Vt) _]
    _ = Vt.transpose.mul (S.mul (Vt.mul (Vt.transpose.mul (S.mul Vt)))) := by
        rw [Mat2.mul_assoc S Vt _]
    _ = Vt.transpose.mul (S.mul ((Vt.mul Vt.transpose).mul (S.mul Vt))) := by
        rw [Mat2.mul_assoc Vt Vt.transpose (S.mul Vt)]
    _ = Vt.transpose.mul (S.mul (S.mul Vt)) := by rw [hV2, Mat2.idm_mul]
    _ = Vt.transpose.mul ((S.mul S).mul Vt) := by rw [Mat2.mul_assoc S S Vt]

theorem trace_sandwich (S Vt : Mat2) (hV2 : Vt.mul Vt.transpose = Mat2.idm) :
    (Vt.transpose.mul (S.mul Vt)).trace = S.trace := by
  rw [Mat2.trace_mul_comm, Mat2.mul_assoc S Vt Vt.transpose, hV2, Mat2.mul_idm]

theorem det_sandwich (S Vt : Mat2) :
    (Vt.transpose.mul (S.mul Vt)).det = S.det * Vt.det ^ 2 := by
  rw [Mat2.det_mul, Mat2.det_mul, Mat2.det_transpose]
  ring

end AutoEval

namespace AutoEval

/-- Uniqueness of the symmetric positive square root among 2×2 matrices:
a symmetric matrix with non-negative diagonal and positive trace whose
square is `diag(sx², sy²)` is `diag(sx, sy)`. -/
theorem symm_psd_sqrt_unique (P : Mat2) (sx sy : ℝ) (hsx : 0 < sx) (hsy : 0 < sy)
    (hsym : P.b = P.c) (ha : 0 ≤ P.a) (hd : 0 ≤ P.d) (htr : 0 < P.a + P.d)
    (hPP : P.mul P = Mat2.diag (sx ^ 2) (sy ^ 2)) : P = Mat2.diag sx sy := by
  have hb : P.b = 0 := by
    have h₁ := congrArg Mat2.b hPP
    simp only [Mat2.mul, Mat2.diag] at h₁
    have h₂ : P.b * (P.a + P.d) = 0 := by linear_combination h₁
    exact (mul_eq_zero.mp h₂).resolve_right (ne_of_gt htr)
  have hc : P.c = 0 := hsym ▸ hb
  have hA : P.a = sx := by
    have h₁ := congrArg Mat2.a hPP
    simp only [Mat2.mul, Mat2.diag] at h₁
    apply nonneg_sq_inj _ _ ha hsx.le
    rw [hb, hc] at h₁
    linear_combination h₁
  have hD : P.d = sy := by
    have h₁ := congrArg Mat2.d hPP
    simp only [Mat2.mul, Mat2.diag] at h₁
    apply nonneg_sq_inj _ _ hd hsy.le
    rw [hb, hc] at h₁
    linear_combination h₁
  exact Mat2.ext_of _ _ hA hb hc hD

/-- Cancel an invertible diagonal factor on the right. -/
theorem orth_cancel_diag (M : Mat2) (sx sy c s : ℝ) (hsx : sx ≠ 0) (hsy : sy ≠ 0)
    (hMD : M.mul (Mat2.diag sx sy) = Mat2.mk (c * sx) (-s * sy) (s * sx) (c * sy)) :
    M = Mat2.mk c (-s) s c := by
  have h₁ := congrArg Mat2.a hMD
  have h₂ := congrArg Mat2.b hMD
  have h₃ := congrArg Mat2.c hMD
  have h₄ := congrArg Mat2.d hMD
  simp only [Mat2.mul, Mat2.diag, mul_zero, zero_mul, add_zero, zero_add] at h₁ h₂ h₃ h₄
  exact Mat2.ext_of _ _ (mul_right_cancel₀ hsx h₁) (mul_right_cancel₀ hsy h₂)
    (mul_right_cancel₀ hsx h₃) (mul_right_cancel₀ hsy h₄)

end AutoEval

section C8Main
open AutoEval

/-- C8 (amended): for a homography whose 2×2 block is `R(θ)·diag(sx,sy)`
(zero shear, bottom row `[0,0,1]`), `decompose_homography` recovers the
rotation exactly — `rotation_deg = θ·180/π` for θ ∈ (−π, π] radians, well
within the claimed 0.5° — but reports the singular values in DESCENDING
order: `scale_x = max(sx,sy)` and `scale_y = min(sx,sy)` (exactly, well
within the claimed 2%), for every `U`, `s`, `Vt` satisfying the documented
`np.linalg.svd` contract (orthogonal factors, `s0 ≥ s1 ≥ 0`, recombination
to the decomposed block).  The claim as stated fails whenever `sy > 1.02·sx`
since then `scale_x ≠ sx`. -/
theorem decompose_recovers_rotation_and_sorted_scales
    (θ sx sy tx ty : ℝ) (U Vt : AutoEval.Mat2) (s0 s1 : ℝ)
    (hθ : θ ∈ Set.Ioc (-Real.pi) Real.pi)
    (hsx : 0 < sx) (hsy : 0 < sy) (hs1 : 0 ≤ s1) (hs01 : s1 ≤ s0)
    (hU : U.transpose.mul U = Mat2.idm)
    (hV : Vt.transpose.mul Vt = Mat2.idm)
    (hV2 : Vt.mul Vt.transpose = Mat2.idm)
    (hA : U.mul ((Mat2.diag s0 s1).mul Vt) =
      linPart (normalizeH (rotScaleHom θ sx sy tx ty))) :
    (decompose_homography (rotScaleHom θ sx sy tx ty) U Vt s0 s1).rotation_deg
        = θ * 180 / Real.pi ∧
    (decompose_homography (rotScaleHom θ sx sy tx ty) U Vt s0 s1).scale_x = max sx sy ∧
    (decompose_homography (rotScaleHom θ sx sy tx ty) U Vt s0 s1).scale_y = min sx sy := by
  have hcs : Real.sin θ ^ 2 + Real.cos θ ^ 2 = 1 := Real.sin_sq_add_cos_sq θ
  have hnorm := normalizeH_of_h22_one (rotScaleHom θ sx sy tx ty) rfl
  have hAval : linPart (normalizeH (rotScaleHom θ sx sy tx ty)) =
      ⟨Real.cos θ * sx, -Real.sin θ * sy, Real.sin θ * sx, Real.cos θ * sy⟩ := by
    rw [hnorm]
    rfl
  have hMP : (U.mul Vt).mul (Vt.transpose.mul ((Mat2.diag s0 s1).mul Vt)) =
      linPart (normalizeH (rotScaleHom θ sx sy tx ty)) := by
    rw [Mat2.mul_assoc U Vt _, ← Mat2.mul_assoc Vt Vt.transpose _, hV2, Mat2.idm_mul, hA]
  have hMtM : (U.mul Vt).transpose.mul (U.mul Vt) = Mat2.idm := by
    rw [Mat2.transpose_mul, Mat2.mul_assoc, ← Mat2.mul_assoc U.transpose U Vt, hU,
      Mat2.idm_mul, hV]
  have hPt : (Vt.transpose.mul ((Mat2.diag s0 s1).mul Vt)).transpose =
      Vt.transpose.mul ((Mat2.diag s0 s1).mul Vt) := by
    apply Mat2.ext_of <;> simp [Mat2.mul, Mat2.transpose, Mat2.diag] <;> ring
  have hAtA : (linPart (normalizeH (rotScaleHom θ sx sy tx ty))).transpose.mul
      (linPart (normalizeH (rotScaleHom θ sx sy tx ty))) = Mat2.diag (sx^2) (sy^2) := by
    rw [hAval]
    refine Mat2.ext_of _ _ ?_ ?_ ?_ ?_ <;>
      simp only [Mat2.mul, Mat2.transpose, Mat2.diag]
    · linear_combination sx^2 * hcs
    · ring
    · ring
    · linear_combination sy^2 * hcs
  have hPP : (Vt.transpose.mul ((Mat2.diag s0 s1).mul Vt)).mul
      (Vt.transpose.mul ((Mat2.diag s0 s1).mul Vt)) = Mat2.diag (sx^2) (sy^2) :=
    (polar_square (U.mul Vt) _ _ hMP hMtM hPt).trans hAtA
  -- determinant of Vt squared is 1
  have hdetV2 : Vt.det ^ 2 = 1 := by
    have h₁ := congrArg Mat2.det hV2
    rw [Mat2.det_mul, Mat2.det_transpose, Mat2.det_idm] at h₁
    linear_combination h₁
  -- s0·s1 = sx·sy
  have hprodsq : (s0 * s1) ^ 2 = (sx * sy) ^ 2 := by
    have h₁ := congrArg Mat2.det hPP
    rw [Mat2.det_mul, det_sandwich] at h₁
    have h₂ : Mat2.det (Mat2.diag s0 s1) = s0 * s1 := by simp [Mat2.det, Mat2.diag]
    have h₃ : Mat2.det (Mat2.diag (sx^2) (sy^2)) = sx^2 * sy^2 := by
      simp [Mat2.det, Mat2.diag]
    rw [h₂, h₃] at h₁
    linear_combination h₁ - (s0*s1)^2 * (Vt.det^2 + 1) * hdetV2
  have hprod : s0 * s1 = sx * sy :=
    nonneg_sq_inj _ _ (mul_nonneg (hs1.trans hs01) hs1) (by positivity) hprodsq
  have hs0pos : 0 < s0 := by nlinarith
  have hs1pos : 0 < s1 := by nlinarith
  -- s0² + s1² = sx² + sy²
  have hsq : s0 ^ 2 + s1 ^ 2 = sx ^ 2 + sy ^ 2 := by
    have h₁ := congrArg Mat2.trace hPP
    rw [sandwich_self _ _ hV2, trace_sandwich _ _ hV2] at h₁
    have h₂ : (Mat2.mul (Mat2.diag s0 s1) (Mat2.diag s0 s1)).trace = s0^2 + s1^2 := by
      simp [Mat2.mul, Mat2.trace, Mat2.diag]
      ring
    have h₃ : (Mat2.diag (sx^2) (sy^2)).trace = sx^2 + sy^2 := by
      simp [Mat2.trace, Mat2.diag]
    rw [h₂, h₃] at h₁
    exact h₁
  have hsumsq : (s0 + s1) ^ 2 = (sx + sy) ^ 2 := by nlinarith [hsq, hprod]
  have hsum : s0 + s1 = sx + sy :=
    nonneg_sq_inj _ _ (by linarith) (by positivity) hsumsq
  obtain ⟨hscale0, hscale1⟩ := sorted_roots s0 s1 sx sy hs1 hs01 hsx hsy hsum hprod
  -- P is the diagonal matrix diag(sx, sy)
  have hPa_nonneg : 0 ≤ (Vt.transpose.mul ((Mat2.diag s0 s1).mul Vt)).a := by
    simp only [Mat2.mul, Mat2.transpose, Mat2.diag]
    nlinarith [sq_nonneg Vt.a, sq_nonneg Vt.c, hs1, hs0pos.le]
  have hPd_nonneg : 0 ≤ (Vt.transpose.mul ((Mat2.diag s0 s1).mul Vt)).d := by
    simp only [Mat2.mul, Mat2.transpose, Mat2.diag]
    nlinarith [sq_nonneg Vt.b, sq_nonneg Vt.d, hs1, hs0pos.le]
  have hPtr : (Vt.transpose.mul ((Mat2.diag s0 s1).mul Vt)).a +
      (Vt.transpose.mul ((Mat2.diag s0 s1).mul Vt)).d = s0 + s1 := by
    have h₁ := trace_sandwich (Mat2.diag s0 s1) Vt hV2
    simpa [Mat2.trace, Mat2.diag] using h₁
  have hPsym : (Vt.transpose.mul ((Mat2.diag s0 s1).mul Vt)).b =
      (Vt.transpose.mul ((Mat2.diag s0 s1).mul Vt)).c := by
    simp only [Mat2.mul, Mat2.transpose, Mat2.diag]
    ring
  have hPD : Vt.transpose.mul ((Mat2.diag s0 s1).mul Vt) = Mat2.diag sx sy :=
    symm_psd_sqrt_unique _ sx sy hsx hsy hPsym hPa_nonneg hPd_nonneg
      (by rw [hPtr]; positivity) hPP
  -- the rotation part U·Vt equals R(θ)
  have hMD : (U.mul Vt).mul (Mat2.diag sx sy) =
      Mat2.mk (Real.cos θ * sx) (-Real.sin θ * sy) (Real.sin θ * sx) (Real.cos θ * sy) := by
    rw [← hPD, hMP, hAval]
  have hM : U.mul Vt = Mat2.mk (Real.cos θ) (-Real.sin θ) (Real.sin θ) (Real.cos θ) :=
    orth_cancel_diag _ sx sy (Real.cos θ) (Real.sin θ) (ne_of_gt hsx) (ne_of_gt hsy) hMD
  have hdet : ¬ ((U.mul Vt).det < 0) := by
    rw [hM, not_lt]
    simp only [Mat2.det]
    nlinarith [hcs]
  refine ⟨?_, ?_, ?_⟩
  · rw [decompose_homography_rotation_eq, if_neg hdet, hM]
    show atan2 (Real.sin θ) (Real.cos θ) * 180 / Real.pi = θ * 180 / Real.pi
    rw [atan2_sin_cos θ hθ]
  · rw [decompose_homography_scale_x_eq]
    exact hscale0
  · rw [decompose_homography_scale_y_eq]
    exact hscale1

/-- The permutation (swap) matrix `[[0,1],[1,0]]`: numpy's SVD factor for a
diagonal matrix whose singular values must be reordered descending. -/
noncomputable def swapM : Mat2 := ⟨0, 1, 1, 0⟩

/-- C8 counterexample: for the zero-rotation, zero-shear homography with
scales `sx = 1`, `sy = 2`, the descending-order SVD of its 2×2 block
`diag(1,2)` is `U = Vt = [[0,1],[1,0]]`, `s = (2,1)` (all contract conjuncts
verified below), and `decompose_homography` then reports `scale_x = 2`,
which is NOT within 2% of `sx = 1`. -/
theorem decompose_scale_swap_counterexample :
    (linPart (normalizeH (rotScaleHom 0 1 2 0 0)) = Mat2.mk 1 0 0 2) ∧
    (swapM.transpose.mul swapM = Mat2.idm) ∧
    (swapM.mul swapM.transpose = Mat2.idm) ∧
    ((0 : ℝ) ≤ 1 ∧ (1 : ℝ) ≤ 2) ∧
    (swapM.mul ((Mat2.diag 2 1).mul swapM) =
       linPart (normalizeH (rotScaleHom 0 1 2 0 0))) ∧
    ((decompose_homography (rotScaleHom 0 1 2 0 0) swapM swapM 2 1).scale_x = 2) ∧
    ¬ (|(decompose_homography (rotScaleHom 0 1 2 0 0) swapM swapM 2 1).scale_x - 1| ≤
        2 / 100 * 1) := by
  have hlin : linPart (normalizeH (rotScaleHom 0 1 2 0 0)) = Mat2.mk 1 0 0 2 := by
    rw [normalizeH_of_h22_one _ rfl]
    apply Mat2.ext_of <;>
      simp [linPart, rotScaleHom, Real.cos_zero, Real.sin_zero]
  refine ⟨hlin, ?_, ?_, ⟨by norm_num, by norm_num⟩, ?_, rfl, ?_⟩
  · apply Mat2.ext_of <;> simp [swapM, Mat2.mul, Mat2.transpose, Mat2.idm]
  · apply Mat2.ext_of <;> simp [swapM, Mat2.mul, Mat2.transpose, Mat2.idm]
  · rw [hlin]
    apply Mat2.ext_of <;> simp [swapM, Mat2.mul, Mat2.diag]
  · rw [decompose_homography_scale_x_eq]
    norm_num

/-- Witness for the amended C8 theorem at `θ = 0`, `sx = sy = 1` with the
trivial SVD. -/
theorem decompose_recovers_witness :
    ((0 : ℝ) ∈ Set.Ioc (-Real.pi) Real.pi) ∧
    (Mat2.idm.transpose.mul Mat2.idm = Mat2.idm) ∧
    (Mat2.idm.mul Mat2.idm.transpose = Mat2.idm) ∧
    (Mat2.idm.mul ((Mat2.diag 1 1).mul Mat2.idm) =
       linPart (normalizeH (rotScaleHom 0 1 1 0 0))) ∧
    ((decompose_homography (rotScaleHom 0 1 1 0 0) Mat2.idm Mat2.idm 1 1).rotation_deg =
        0 * 180 / Real.pi ∧
     (decompose_homography (rotScaleHom 0 1 1 0 0) Mat2.idm Mat2.idm 1 1).scale_x =
        max 1 1 ∧
     (decompose_homography (rotScaleHom 0 1 1 0 0) Mat2.idm Mat2.idm 1 1).scale_y =
        min 1 1) := by
  have hθ : (0 : ℝ) ∈ Set.Ioc (-Real.pi) Real.pi :=
    ⟨neg_lt_zero.mpr Real.pi_pos, Real.pi_pos.le⟩
  have hid : Mat2.idm.transpose.mul Mat2.idm = Mat2.idm := by
    apply Mat2.ext_of <;> simp [Mat2.mul, Mat2.transpose, Mat2.idm]
  have hid2 : Mat2.idm.mul Mat2.idm.transpose = Mat2.idm := by
    apply Mat2.ext_of <;> simp [Mat2.mul, Mat2.transpose, Mat2.idm]
  have hA0 : Mat2.idm.mul ((Mat2.diag 1 1).mul Mat2.idm) =
      linPart (normalizeH (rotScaleHom 0 1 1 0 0)) := by
    rw [normalizeH_of_h22_one _ rfl]
    apply Mat2.ext_of <;>
      simp [Mat2.mul, Mat2.diag, Mat2.idm, linPart, rotScaleHom,
        Real.cos_zero, Real.sin_zero]
  exact ⟨hθ, hid, hid2, hA0,
    decompose_recovers_rotation_and_sorted_scales 0 1 1 0 0 Mat2.idm Mat2.idm 1 1
      hθ one_pos one_pos zero_le_one le_rfl hid hid hid2 hA0⟩


end C8Main
